import Mathlib

/-!
Shallow embedding of the word-markov-model repository: `dictionary.py`,
`word_markov_model.py` and `language_prediction.py`.  Python strings are
lists of characters, Python dicts are insertion-ordered association lists,
Python float arithmetic on probabilities is carried out exactly in ℚ, and
the two unbounded loops (word generation and the best-first top-k search)
take explicit recursion fuel, returning `none` when the fuel runs out or
when Python would raise a `KeyError`.
-/

namespace WordMarkov

/-- Words and n-grams are Python strings, modelled as lists of characters. -/
abbrev Str : Type := List Char

/-- The Python slice `s[-n:]` for `n ≥ 1`: the last `n` characters. -/
def takeR {α : Type} (n : Nat) (l : List α) : List α := l.drop (l.length - n)

/-- Lookup in a Python dict modelled as an insertion-ordered association list. -/
def alookup {α : Type} : List (Str × α) → Str → Option α
  | [], _ => none
  | p :: rest, k => if p.1 = k then some p.2 else alookup rest k

/-- Python dict assignment `d[k] = v`: update an existing binding in place,
otherwise append the new binding at the end. -/
def ainsert {α : Type} : List (Str × α) → Str → α → List (Str × α)
  | [], k, v => [(k, v)]
  | p :: rest, k, v => if p.1 = k then (k, v) :: rest else p :: ainsert rest k v

/-- `Dictionary.START_CHARACTER` -/
def START_CHARACTER : Char := '^'

/-- `Dictionary.END_CHARACTER` -/
def END_CHARACTER : Char := '$'

/-- The end character as a one-character Python string. -/
def endStr : Str := [END_CHARACTER]

/-- The reserved key under which `train` caches each prechain's total count. -/
def sumKey : Str := ("##sum").data

/-- `dictionary.py`, `build_ngram_for`: `('^' * n + substring)[-n:]`.
For `n = 0` the Python slice `[-0:]` returns the whole string. -/
def build_ngram_for (substring : Str) (ngram_length : Nat) : Str :=
  let padded := List.replicate ngram_length START_CHARACTER ++ substring
  if ngram_length = 0 then padded else takeR ngram_length padded

/-- `dictionary.py`, `build_ngrams_of_word`: pad the word on the left with
`ngram_length - 1` start characters, append the end character when
`with_ending`, and list all full-length windows.  The Python loop bound
`len(augmented) - ngram_length + 1` is evaluated in ℤ, hence the
`length + 1 - ngram_length` truncated form. -/
def build_ngrams_of_word (word : Str) (ngram_length : Nat) (with_ending : Bool) : List Str :=
  let augmented_word :=
    List.replicate (ngram_length - 1) START_CHARACTER ++ word ++
      (if with_ending then endStr else [])
  (List.range (augmented_word.length + 1 - ngram_length)).map
    (fun i => (augmented_word.drop i).take ngram_length)

/-- The padded (and, with ending, terminated) form built inside
`build_ngrams_of_word`, named so lemmas can speak about it. -/
def augmentedWord (word : Str) (ngram_length : Nat) (with_ending : Bool) : Str :=
  List.replicate (ngram_length - 1) START_CHARACTER ++ word ++
    (if with_ending then endStr else [])

/-- The window pass of `build_ngrams_of_word`, named for lemmas. -/
def slideWindows (ngram_length : Nat) (l : Str) : List Str :=
  (List.range (l.length + 1 - ngram_length)).map
    (fun i => (l.drop i).take ngram_length)

/-- `dictionary.py`, `build_ngrams`: all n-grams of all dictionary words,
with endings. -/
def allNgrams (words : List Str) (ngram_length : Nat) : List Str :=
  (words.map (fun w => build_ngrams_of_word w ngram_length true)).flatten

/-- Distinct elements of a list, keeping first occurrences (the key set of
`Counter(l)`). -/
def dedupKeys : List Str → List Str
  | [] => []
  | x :: xs => x :: (dedupKeys xs).filter (fun y => y ≠ x)

/-- Python string comparison: lexicographic on character code points. -/
def strLtB : Str → Str → Bool
  | [], [] => false
  | [], _ :: _ => true
  | _ :: _, [] => false
  | a :: as, b :: bs => if a < b then true else if b < a then false else strLtB as bs

/-- One step of insertion sort by n-gram key. -/
def insertSorted (x : Str × Nat) : List (Str × Nat) → List (Str × Nat)
  | [] => [x]
  | y :: ys => if strLtB x.1 y.1 then x :: y :: ys else y :: insertSorted x ys

/-- `list(Counter(l).items())` sorted by key, as built at the start of
`train()` (`ngrams.sort(key=itemgetter(0))`). -/
def counterItems (l : List Str) : List (Str × Nat) :=
  ((dedupKeys l).map (fun k => (k, l.count k))).foldr insertSorted []

/-- `word_markov_model.py`, `build_prechain_from_ngram`: `ngram[:-1]`. -/
def build_prechain_from_ngram (ngram : Str) : Str := ngram.dropLast

/-- `word_markov_model.py`, `build_postchain_from_ngram`: `ngram[-1:]`. -/
def build_postchain_from_ngram (ngram : Str) : Str := takeR 1 ngram

/-- A prechain's transition dict: postchain (and `##sum`) keys to counts. -/
abbrev CDict := List (Str × Nat)

/-- The trained transition table. -/
abbrev Table := List (Str × CDict)

/-- One insertion of `train()`'s first loop. -/
def trainStep (transitions : Table) (p : Str × Nat) : Table :=
  let prechain := build_prechain_from_ngram p.1
  let postchain := build_postchain_from_ngram p.1
  ainsert transitions prechain
    (ainsert ((alookup transitions prechain).getD []) postchain p.2)

/-- `word_markov_model.py`, `train()`: count the `(order+1)`-grams, sort the
counter items by key, accumulate them into the transition table, then cache
each prechain's total occurrence count under `##sum`. -/
def train (words : List Str) (model_order : Nat) : Table :=
  let ngrams := counterItems (allNgrams words (model_order + 1))
  let t := ngrams.foldl trainStep []
  t.map (fun p => (p.1, ainsert p.2 sumKey ((p.2.map Prod.snd).sum)))

/-- `word_markov_model.py`, `find_ngram_probability`.  Python indexes
`transition['##sum']` directly; on every trained table that key is present,
so the `Option` default is never exercised there. -/
def find_ngram_probability (t : Table) (ngram : Str) : ℚ :=
  match alookup t (build_prechain_from_ngram ngram) with
  | none => 0
  | some transition =>
    match alookup transition (build_postchain_from_ngram ngram) with
    | none => 0
    | some cnt => (cnt : ℚ) / (((alookup transition sumKey).getD 0 : Nat) : ℚ)

/-- `word_markov_model.py`, `find_word_probability`: the pair of the total
probability (`reduce(mul, probabilities, 1)`) and the per-n-gram list. -/
def find_word_probability (t : Table) (model_order : Nat) (word : Str) (with_ending : Bool) :
    ℚ × List ℚ :=
  let ngrams_probabilities :=
    (build_ngrams_of_word word (model_order + 1) with_ending).map (find_ngram_probability t)
  (ngrams_probabilities.foldl (· * ·) 1, ngrams_probabilities)

/-- `word_markov_model.py`, `transition_occurences_to_probabilities`. -/
def transition_occurences_to_probabilities (transitions : CDict) : List (Str × ℚ) :=
  let occurences_sum : Nat := (alookup transitions sumKey).getD 0
  (transitions.filter (fun x => x.1 ≠ sumKey)).map
    (fun x => (x.1, (x.2 : ℚ) / (occurences_sum : ℚ)))

/-- A priority-queue entry: `(1 - probability, word)`. -/
abbrev Entry := ℚ × Str

/-- Python tuple comparison, as used by `PriorityQueue` on entries. -/
def entryLtB (e f : Entry) : Bool :=
  if e.1 < f.1 then true else if f.1 < e.1 then false else strLtB e.2 f.2

/-- Select the least entry of `e :: l` and return it with the rest. -/
def selectMin : Entry → List Entry → Entry × List Entry
  | e, [] => (e, [])
  | e, f :: rest =>
    if entryLtB f e then
      let p := selectMin f rest
      (p.1, e :: p.2)
    else
      let p := selectMin e rest
      (p.1, f :: p.2)

/-- `PriorityQueue.get()`: remove the least entry under tuple comparison. -/
def popMin : List Entry → Option (Entry × List Entry)
  | [] => none
  | e :: rest => some (selectMin e rest)

/-- `word_entry(word, word_probability)` inside `find_most_probable_words`:
the queue entry `(1 - probability, word)`, computing the probability with
`find_word_probability(word, with_ending=False)` when it is not supplied. -/
def word_entry (t : Table) (model_order : Nat) (word : Str) (word_probability : Option ℚ) :
    Entry :=
  match word_probability with
  | none => (1 - (find_word_probability t model_order word false).1, word)
  | some p => (1 - p, word)

/-- The while loop of `find_most_probable_words`, with fuel.  The state is
the queue, the emitted words, the iteration count and the maximum queue
size; `none` models fuel exhaustion or the `KeyError` an absent prechain
would raise at `self.transitions[current_ngram]`. -/
def fmpwLoop (t : Table) (model_order words_count : Nat) :
    Nat → List Entry → List Str → Nat → Nat → Option (List Str × Nat × Nat)
  | 0, _, _, _, _ => none
  | fuel + 1, queue, results, iteration, max_queue_size =>
    if results.length < words_count then
      match popMin queue with
      | none => some (results, iteration, max_queue_size)
      | some (entry, rest) =>
        let iter := iteration + 1
        let mq := max max_queue_size queue.length
        if takeR 1 entry.2 = endStr then
          fmpwLoop t model_order words_count fuel rest (results ++ [entry.2.dropLast]) iter mq
        else
          match alookup t (build_ngram_for entry.2 model_order) with
          | none => none
          | some transition =>
            let pushed := (transition_occurences_to_probabilities transition).map
              (fun pc => word_entry t model_order (entry.2 ++ pc.1) (some ((1 - entry.1) * pc.2)))
            fmpwLoop t model_order words_count fuel (rest ++ pushed) results iter mq
    else some (results, iteration, max_queue_size)

/-- `word_markov_model.py`, `find_most_probable_words`: run the best-first
search, then pair every found word with `find_word_probability(word)`
(with ending); also return the iteration count and maximum queue size. -/
def find_most_probable_words (t : Table) (model_order words_count fuel : Nat) :
    Option (List (Str × ℚ × List ℚ) × Nat × Nat) :=
  match fmpwLoop t model_order words_count fuel
      [word_entry t model_order [] none] [] 0 0 with
  | none => none
  | some (ws, iteration, mq) =>
    some (ws.map (fun w => (w, find_word_probability t model_order w true)), iteration, mq)

/-- The cumulative scan of `generate_next_character`: the first item whose
running count sum reaches the random number. -/
def pickTransition : List (Str × Nat) → Nat → Option Str
  | [], _ => none
  | x :: rest, r => if r ≤ x.2 then some x.1 else pickTransition rest (r - x.2)

/-- `randint(1, hi)` driven by one oracle value; every value in `[1, hi]`
is realisable and no other value is (for `hi ≥ 1`). -/
def randint1 (hi r : Nat) : Nat := 1 + r % hi

/-- `word_markov_model.py`, `generate_next_character`.  The second returned
component is a ghost flag: true exactly when the empty-transition-items
branch forced the end character.  `none` models the `KeyError` of an absent
ngram and the `ValueError` of `randint` on an empty range. -/
def generate_next_character (t : Table) (word_ngram : Str) (end_character : Bool) (r : Nat) :
    Option (Str × Bool) :=
  match alookup t word_ngram with
  | none => none
  | some transition =>
    let noEnd : Bool := !end_character && (alookup transition endStr).isSome
    let ending_character_occurences : Nat :=
      if noEnd then (alookup transition endStr).getD 0 else 0
    let transition_items :=
      if noEnd then
        (transition.filter (fun x => x.1 ≠ sumKey)).filter (fun x => x.1 ≠ endStr)
      else transition.filter (fun x => x.1 ≠ sumKey)
    if transition_items.length = 0 then some (endStr, true)
    else
      let hi := ((alookup transition sumKey).getD 0) - ending_character_occurences
      if hi = 0 then none
      else
        match pickTransition transition_items (randint1 hi (r : Nat)) with
        | none => none
        | some c => some (c, false)

/-- The check `len(word) <= max_length`, where `none` stands for
`math.inf`. -/
def lenOk (word : Str) : Option Nat → Bool
  | none => true
  | some m => decide (word.length ≤ m)

/-- The while loop of `generate_word`, with fuel, an oracle feeding each
`randint` draw, and a ghost flag recording whether the end character was
ever forced while the word was still below `min_length`. -/
def generate_word_loop (t : Table) (model_order min_length : Nat) (max_length : Option Nat)
    (oracle : Nat → Nat) :
    Nat → Str → Str → Bool → Nat → Option (Str × Bool)
  | 0, _, _, _, _ => none
  | fuel + 1, word, next_character, forced, idx =>
    if next_character ≠ endStr ∧ lenOk word max_length = true then
      match generate_next_character t (build_ngram_for word model_order)
          (decide (min_length ≤ word.length)) (oracle idx) with
      | none => none
      | some (c, eb) =>
        generate_word_loop t model_order min_length max_length oracle fuel
          (word ++ c) c (forced || (eb && decide (word.length < min_length))) (idx + 1)
    else
      some (word.filter (fun ch => ch ≠ START_CHARACTER && ch ≠ END_CHARACTER), forced)

/-- `word_markov_model.py`, `generate_word`: run the loop from the empty
word and strip all start/end characters from the result. -/
def generate_word (t : Table) (model_order min_length : Nat) (max_length : Option Nat)
    (oracle : Nat → Nat) (fuel : Nat) : Option (Str × Bool) :=
  generate_word_loop t model_order min_length max_length oracle fuel [] [] false 0

/-- `dictionary.py`: the ordered word list together with the set view. -/
structure Dictionary where
  words : List Str
  words_set : Finset Str

/-- `dictionary.py`, `filter_words`: filter both views. -/
def filter_words (d : Dictionary) (filter_predicate : Str → Bool) : Dictionary :=
  ⟨d.words.filter filter_predicate, d.words_set.filter (fun w => filter_predicate w = true)⟩

/-- `dictionary.py`, `map_words`: `self.words` is reassigned first, and the
set view is then built with `set(map(transform, self.words))` over the
already transformed list, so the set view receives the transform twice. -/
def map_words (d : Dictionary) (transform : Str → Str) : Dictionary :=
  let words := d.words.map transform
  ⟨words, (words.map transform).toFinset⟩

/-- `dictionary.py`, `__contains__`: membership against the set view. -/
def dictionary_contains (d : Dictionary) (word : Str) : Prop := word ∈ d.words_set

/-- `language_prediction.py`, `language_probabilities`; a model is a trained
table with its order. -/
def language_probabilities (word : Str) (models : List (Table × Nat)) : List ℚ :=
  models.map (fun model => (find_word_probability model.1 model.2 word true).1)

/-- `language_prediction.py`, `language_membership`. -/
def language_membership (word : Str) (models : List (Table × Nat)) : List ℚ :=
  let probabilities := language_probabilities word models
  let probabilities_sum := if probabilities.sum = 0 then 1 else probabilities.sum
  probabilities.map (fun probability => probability / probabilities_sum)

/-- Structural facts every trained table satisfies: distinct prechains of
the model-order length; each transition dict has distinct keys, carries the
cached total of its postchain counts under `##sum`, and its proper keys are
single characters with at least one of them present. -/
def TableWF (t : Table) (model_order : Nat) : Prop :=
  (t.map Prod.fst).Nodup ∧
  ∀ p ∈ t, p.1.length = model_order ∧
    (p.2.map Prod.fst).Nodup ∧
    alookup p.2 sumKey = some (((p.2.filter (fun q => q.1 ≠ sumKey)).map Prod.snd).sum) ∧
    (∀ q ∈ p.2, q.1 ≠ sumKey → q.1.length = 1) ∧
    (p.2.filter (fun q => q.1 ≠ sumKey)) ≠ []

/-- The words the best-first search can reach by repeatedly appending
recorded non-end postchains, starting from the empty word. -/
inductive Reachable (t : Table) (model_order : Nat) : Str → Prop where
  | nil : Reachable t model_order []
  | step : ∀ w d c cnt, Reachable t model_order w →
      alookup t (build_ngram_for w model_order) = some d →
      alookup d c = some cnt → c ≠ sumKey → c ≠ endStr →
      Reachable t model_order (w ++ c)

/-- The three-word example dictionary of the spec scenario, in the sorted
order `Dictionary.__init__` produces. -/
def exWords : List Str := [("can").data, ("car").data, ("cat").data]

/-- The value `find_most_probable_words` returns on the example dictionary
with order 2 and `words_count = 3`. -/
def exRet : List (Str × ℚ × List ℚ) × Nat × Nat :=
  ([(("can").data, (1/3 : ℚ), [1, 1, (1/3 : ℚ), 1]),
    (("car").data, (1/3 : ℚ), [1, 1, (1/3 : ℚ), 1]),
    (("cat").data, (1/3 : ℚ), [1, 1, (1/3 : ℚ), 1])], 9, 3)

/-- A one-word dictionary used to exhibit the max-length overshoot of
`generate_word`. -/
def exWords5 : List Str := [("aaaaa").data]

/-- A one-word dictionary on which an order-0 model shows that zero-length
prechains are not closed under shifting. -/
def exWords0 : List Str := [("ab").data]

/-- The `"ca"` prechain entry of the trained example table, used as a
concrete witness input. -/
def exEntry : Str × CDict :=
  (("ca").data, [(("n").data, 1), (("r").data, 1), (("t").data, 1), (sumKey, 3)])

/-- The prefix probability the best-first search propagates:
`find_word_probability(word, with_ending=False)[0]`. -/
def prefixProb (t : Table) (model_order : Nat) (word : Str) : ℚ :=
  (find_word_probability t model_order word false).1

/-- The with-ending probability paired with emitted words:
`find_word_probability(word)[0]`. -/
def endProb (t : Table) (model_order : Nat) (word : Str) : ℚ :=
  (find_word_probability t model_order word true).1

/-- The invariant tying the two dictionary views together: the set view and
the ordered word list hold the same strings. -/
def viewsAgree (d : Dictionary) : Prop :=
  ∀ w : Str, dictionary_contains d w ↔ w ∈ d.words

/-- An empty dictionary, used as a concrete witness input. -/
def exEmptyDict : Dictionary := ⟨[], ∅⟩

/-! ### Association-list lemmas -/

theorem alookup_cons {α : Type} (p : Str × α) (rest : List (Str × α)) (k : Str) :
    alookup (p :: rest) k = if p.1 = k then some p.2 else alookup rest k := rfl

theorem ainsert_cons {α : Type} (p : Str × α) (rest : List (Str × α)) (k : Str) (v : α) :
    ainsert (p :: rest) k v = if p.1 = k then (k, v) :: rest else p :: ainsert rest k v := rfl

theorem alookup_ainsert {α : Type} (m : List (Str × α)) (k k' : Str) (v : α) :
    alookup (ainsert m k v) k' = if k' = k then some v else alookup m k' := by
  induction m with
  | nil =>
    show (if k = k' then some v else none) = _
    by_cases h : k' = k
    · rw [if_pos h.symm, if_pos h]
    · rw [if_neg (fun he => h he.symm), if_neg h]
      rfl
  | cons p rest ih =>
    rw [ainsert_cons]
    by_cases hp : p.1 = k
    · rw [if_pos hp, alookup_cons]
      by_cases h : k' = k
      · rw [if_pos h.symm, if_pos h]
      · rw [if_neg (fun he => h he.symm), if_neg h, alookup_cons,
          if_neg (fun he : p.1 = k' => h ((hp.symm.trans he).symm))]
    · rw [if_neg hp, alookup_cons, alookup_cons, ih]
      by_cases hq : p.1 = k'
      · rw [if_pos hq, if_pos hq, if_neg (fun he : k' = k => hp (hq.trans he))]
      · rw [if_neg hq, if_neg hq]

theorem mem_ainsert {α : Type} (m : List (Str × α)) (k : Str) (v : α) :
    ∀ q ∈ ainsert m k v, q = (k, v) ∨ q ∈ m := by
  induction m with
  | nil =>
    intro q hq
    exact Or.inl (List.mem_singleton.mp hq)
  | cons p rest ih =>
    intro q hq
    rw [ainsert_cons] at hq
    by_cases hp : p.1 = k
    · rw [if_pos hp] at hq
      rcases List.mem_cons.mp hq with h | h
      · exact Or.inl h
      · exact Or.inr (List.mem_cons_of_mem _ h)
    · rw [if_neg hp] at hq
      rcases List.mem_cons.mp hq with h | h
      · exact Or.inr (h ▸ List.mem_cons_self p rest)
      · rcases ih q h with h' | h'
        · exact Or.inl h'
        · exact Or.inr (List.mem_cons_of_mem _ h')

theorem ainsert_self_mem {α : Type} (m : List (Str × α)) (k : Str) (v : α) :
    (k, v) ∈ ainsert m k v := by
  induction m with
  | nil => exact List.mem_singleton.mpr rfl
  | cons p rest ih =>
    rw [ainsert_cons]
    by_cases hp : p.1 = k
    · rw [if_pos hp]
      exact List.mem_cons_self _ _
    · rw [if_neg hp]
      exact List.mem_cons_of_mem _ ih

theorem alookup_eq_none {α : Type} (m : List (Str × α)) (k : Str) :
    alookup m k = none ↔ k ∉ m.map Prod.fst := by
  induction m with
  | nil =>
    constructor
    · intro _
      simp only [List.map_nil]
      exact List.not_mem_nil k
    · intro _
      rfl
  | cons p rest ih =>
    rw [alookup_cons]
    by_cases hp : p.1 = k
    · simp only [if_pos hp, List.map_cons, List.mem_cons]
      constructor
      · intro h
        exact absurd h (by simp)
      · intro h
        exact absurd (Or.inl hp.symm) h
    · simp only [if_neg hp, List.map_cons, List.mem_cons, ih]
      constructor
      · intro h hk
        rcases hk with hk | hk
        · exact hp hk.symm
        · exact h hk
      · intro h hk
        exact h (Or.inr hk)

theorem mem_of_alookup {α : Type} (m : List (Str × α)) (k : Str) (v : α)
    (h : alookup m k = some v) : (k, v) ∈ m := by
  induction m with
  | nil => exact absurd h (by simp [alookup])
  | cons p rest ih =>
    rw [alookup_cons] at h
    by_cases hp : p.1 = k
    · rw [if_pos hp] at h
      have : p = (k, v) := by
        cases p
        simp at hp
        simp [Option.some_inj] at h
        exact Prod.ext hp h
      exact this ▸ List.mem_cons_self p rest
    · rw [if_neg hp] at h
      exact List.mem_cons_of_mem _ (ih h)

theorem alookup_of_mem {α : Type} (m : List (Str × α)) (k : Str) (v : α)
    (hnd : (m.map Prod.fst).Nodup) (h : (k, v) ∈ m) : alookup m k = some v := by
  induction m with
  | nil => exact absurd h (by simp)
  | cons p rest ih =>
    simp only [List.map_cons, List.nodup_cons] at hnd
    rcases List.mem_cons.mp h with h' | h'
    · rw [← h', alookup_cons, if_pos rfl]
    · have hk : p.1 ≠ k := fun he =>
        hnd.1 (he ▸ List.mem_map_of_mem Prod.fst h')
      rw [alookup_cons, if_neg hk]
      exact ih hnd.2 h'

theorem ainsert_keys {α : Type} (m : List (Str × α)) (k : Str) (v : α) :
    (ainsert m k v).map Prod.fst =
      if k ∈ m.map Prod.fst then m.map Prod.fst else m.map Prod.fst ++ [k] := by
  induction m with
  | nil =>
    rw [show ainsert ([] : List (Str × α)) k v = [(k, v)] from rfl]
    rw [if_neg (by simp only [List.map_nil]; exact List.not_mem_nil k)]
    rfl
  | cons p rest ih =>
    rw [ainsert_cons]
    by_cases hp : p.1 = k
    · rw [if_pos hp]
      have : k ∈ (p :: rest).map Prod.fst :=
        List.mem_map.mpr ⟨p, List.mem_cons_self p rest, hp⟩
      rw [if_pos this]
      simp only [List.map_cons, hp]
    · rw [if_neg hp]
      by_cases hm : k ∈ rest.map Prod.fst
      · have : k ∈ (p :: rest).map Prod.fst := by
          simp only [List.map_cons, List.mem_cons]
          exact Or.inr hm
        rw [if_pos this]
        simp only [List.map_cons]
        rw [ih, if_pos hm]
      · have : k ∉ (p :: rest).map Prod.fst := by
          simp only [List.map_cons, List.mem_cons]
          intro hc
          rcases hc with hc | hc
          · exact hp hc.symm
          · exact hm hc
        rw [if_neg this]
        simp only [List.map_cons]
        rw [ih, if_neg hm]
        rfl

theorem ainsert_keys_nodup {α : Type} (m : List (Str × α)) (k : Str) (v : α)
    (hnd : (m.map Prod.fst).Nodup) : ((ainsert m k v).map Prod.fst).Nodup := by
  rw [ainsert_keys]
  by_cases hm : k ∈ m.map Prod.fst
  · rw [if_pos hm]
    exact hnd
  · rw [if_neg hm]
    rw [List.nodup_append]
    exact ⟨hnd, List.nodup_singleton k, by
      intro a ha hb
      rw [List.mem_singleton] at hb
      exact hm (hb ▸ ha)⟩

theorem ainsert_of_not_mem {α : Type} (m : List (Str × α)) (k : Str) (v : α)
    (h : k ∉ m.map Prod.fst) : ainsert m k v = m ++ [(k, v)] := by
  induction m with
  | nil => rfl
  | cons p rest ih =>
    simp only [List.map_cons, List.mem_cons] at h
    rw [ainsert_cons, if_neg (fun he : p.1 = k => h (Or.inl he.symm))]
    rw [ih (fun hc => h (Or.inr hc))]
    rfl

theorem alookup_append_left {α : Type} (m m' : List (Str × α)) (k : Str) (v : α)
    (h : alookup m k = some v) : alookup (m ++ m') k = some v := by
  induction m with
  | nil => exact absurd h (by simp [alookup])
  | cons p rest ih =>
    rw [alookup_cons] at h
    rw [List.cons_append, alookup_cons]
    by_cases hp : p.1 = k
    · rwa [if_pos hp] at h ⊢
    · rw [if_neg hp] at h ⊢
      exact ih h

theorem alookup_append_right {α : Type} (m m' : List (Str × α)) (k : Str)
    (h : alookup m k = none) : alookup (m ++ m') k = alookup m' k := by
  induction m with
  | nil => rfl
  | cons p rest ih =>
    rw [alookup_cons] at h
    rw [List.cons_append, alookup_cons]
    by_cases hp : p.1 = k
    · rw [if_pos hp] at h
      exact absurd h (by simp)
    · rw [if_neg hp] at h ⊢
      exact ih h

/-! ### `takeR` lemmas -/

theorem takeR_length {α : Type} (n : Nat) (l : List α) :
    (takeR n l).length = min n l.length := by
  simp only [takeR, List.length_drop]
  omega

theorem takeR_all {α : Type} (n : Nat) (l : List α) (h : l.length ≤ n) :
    takeR n l = l := by
  unfold takeR
  rw [show l.length - n = 0 by omega]
  exact List.drop_zero l

theorem takeR_append_of_le {α : Type} (n : Nat) (l l' : List α) (h : n ≤ l'.length) :
    takeR n (l ++ l') = takeR n l' := by
  unfold takeR
  rw [List.length_append]
  rw [show l.length + l'.length - n = l.length + (l'.length - n) by omega,
    List.drop_append]

theorem takeR_one_append {α : Type} (l : List α) (a : α) :
    takeR 1 (l ++ [a]) = [a] := by
  rw [takeR_append_of_le 1 l [a] (by simp)]
  rfl

theorem takeR_succ_append {α : Type} (n : Nat) (l : List α) (a : α) (h : n ≤ l.length) :
    takeR (n + 1) (l ++ [a]) = takeR n l ++ [a] := by
  unfold takeR
  rw [List.length_append]
  simp only [List.length_singleton]
  rw [show l.length + 1 - (n + 1) = l.length - n by omega]
  rw [List.drop_append_eq_append_drop]
  rw [show l.length - n - l.length = 0 by omega]
  simp

theorem tail_takeR {α : Type} (n : Nat) (l : List α) (hn : 1 ≤ n) (h : n ≤ l.length) :
    (takeR n l).tail = takeR (n - 1) l := by
  unfold takeR
  rw [← List.drop_one, List.drop_drop]
  congr 1
  omega

/-! ### Window lemmas for `build_ngrams_of_word` -/

theorem bnow_eq_slide (word : Str) (ngram_length : Nat) (with_ending : Bool) :
    build_ngrams_of_word word ngram_length with_ending =
      slideWindows ngram_length (augmentedWord word ngram_length with_ending) := rfl

theorem augmentedWord_length (word : Str) (ngram_length : Nat) (with_ending : Bool) :
    (augmentedWord word ngram_length with_ending).length =
      ngram_length - 1 + word.length + (if with_ending then 1 else 0) := by
  unfold augmentedWord
  cases with_ending
  · simp
  · simp [endStr]
    omega

theorem slideWindows_length (ngram_length : Nat) (l : Str) :
    (slideWindows ngram_length l).length = l.length + 1 - ngram_length := by
  unfold slideWindows
  rw [List.length_map, List.length_range]

theorem mem_slideWindows (ngram_length : Nat) (l : Str) (ng : Str) :
    ng ∈ slideWindows ngram_length l ↔
      ∃ i, i + ngram_length ≤ l.length ∧ ng = (l.drop i).take ngram_length := by
  unfold slideWindows
  rw [List.mem_map]
  constructor
  · rintro ⟨i, hi, rfl⟩
    rw [List.mem_range] at hi
    exact ⟨i, by omega, rfl⟩
  · rintro ⟨i, hi, rfl⟩
    exact ⟨i, List.mem_range.mpr (by omega), rfl⟩

theorem window_length (ngram_length : Nat) (l : Str) (i : Nat)
    (h : i + ngram_length ≤ l.length) :
    ((l.drop i).take ngram_length).length = ngram_length := by
  rw [List.length_take, List.length_drop]
  omega

theorem window_dropLast (ngram_length : Nat) (l : Str) (i : Nat)
    (h : i + ngram_length ≤ l.length) :
    ((l.drop i).take ngram_length).dropLast = (l.drop i).take (ngram_length - 1) := by
  rw [List.dropLast_eq_take, window_length ngram_length l i h, List.take_take]
  congr 1
  omega

theorem window_takeR_one (ngram_length : Nat) (l : Str) (i : Nat)
    (hN : 1 ≤ ngram_length) (h : i + ngram_length ≤ l.length) :
    takeR 1 ((l.drop i).take ngram_length) = (l.drop (i + ngram_length - 1)).take 1 := by
  unfold takeR
  rw [window_length ngram_length l i h]
  rw [List.drop_take, List.drop_drop]
  rw [show ngram_length - (ngram_length - 1) = 1 from by omega,
    show i + (ngram_length - 1) = i + ngram_length - 1 from by omega]

theorem slideWindows_snoc (ngram_length : Nat) (l : Str) (c : Char)
    (h : ngram_length ≤ l.length + 1) :
    slideWindows ngram_length (l ++ [c]) =
      slideWindows ngram_length l ++ [takeR ngram_length (l ++ [c])] := by
  unfold slideWindows
  rw [List.length_append, List.length_singleton]
  rw [show l.length + 1 + 1 - ngram_length = (l.length + 1 - ngram_length) + 1 by omega]
  rw [List.range_succ, List.map_append]
  congr 1
  · apply List.map_congr_left
    intro i hi
    rw [List.mem_range] at hi
    rw [List.drop_append_eq_append_drop, show i - l.length = 0 by omega, List.drop_zero,
      List.take_append_eq_append_take]
    rw [show ngram_length - (l.drop i).length = 0 by
      rw [List.length_drop]; omega]
    simp
  · simp only [List.map_cons, List.map_nil]
    congr 1
    unfold takeR
    rw [List.length_append, List.length_singleton]
    apply List.take_of_length_le
    rw [List.length_drop, List.length_append, List.length_singleton]
    omega

theorem bnow_true_eq_snoc_false (word : Str) (ngram_length : Nat) :
    build_ngrams_of_word word ngram_length true =
      build_ngrams_of_word (word ++ [END_CHARACTER]) ngram_length false := by
  rw [bnow_eq_slide, bnow_eq_slide]
  congr 1
  unfold augmentedWord
  simp [endStr, List.append_assoc]

theorem bnow_false_snoc (word : Str) (ngram_length : Nat) (c : Char)
    (hN : 1 ≤ ngram_length) :
    build_ngrams_of_word (word ++ [c]) ngram_length false =
      build_ngrams_of_word word ngram_length false ++
        [takeR (ngram_length - 1)
          (List.replicate (ngram_length - 1) START_CHARACTER ++ word) ++ [c]] := by
  rw [bnow_eq_slide, bnow_eq_slide]
  have h1 : augmentedWord (word ++ [c]) ngram_length false =
      (List.replicate (ngram_length - 1) START_CHARACTER ++ word) ++ [c] := by
    unfold augmentedWord
    simp [List.append_assoc]
  have h2 : augmentedWord word ngram_length false =
      List.replicate (ngram_length - 1) START_CHARACTER ++ word := by
    unfold augmentedWord
    simp
  rw [h1, h2]
  rw [slideWindows_snoc ngram_length _ c
    (by rw [List.length_append, List.length_replicate]; omega)]
  congr 2
  obtain ⟨M, rfl⟩ : ∃ M, ngram_length = M + 1 := ⟨ngram_length - 1, by omega⟩
  rw [Nat.add_sub_cancel]
  rw [takeR_succ_append M _ c
    (by rw [List.length_append, List.length_replicate]; omega)]

/-! ### Counter lemmas -/

theorem mem_insertSorted (x y : Str × Nat) (l : List (Str × Nat)) :
    y ∈ insertSorted x l ↔ y = x ∨ y ∈ l := by
  induction l with
  | nil =>
    unfold insertSorted
    simp
  | cons z zs ih =>
    unfold insertSorted
    by_cases h : strLtB x.1 z.1
    · rw [if_pos h]
      simp only [List.mem_cons]
    · rw [if_neg h]
      simp only [List.mem_cons, ih]
      tauto

theorem mem_foldr_insertSorted (lst acc : List (Str × Nat)) (y : Str × Nat) :
    y ∈ lst.foldr insertSorted acc ↔ y ∈ lst ∨ y ∈ acc := by
  induction lst with
  | nil => simp
  | cons z zs ih =>
    simp only [List.foldr_cons, mem_insertSorted, ih, List.mem_cons]
    tauto

theorem mem_dedupKeys (l : List Str) (k : Str) : k ∈ dedupKeys l ↔ k ∈ l := by
  induction l with
  | nil => simp [dedupKeys]
  | cons x xs ih =>
    unfold dedupKeys
    simp only [List.mem_cons, List.mem_filter, ih, decide_eq_true_eq]
    constructor
    · rintro (h | ⟨h, _⟩)
      · exact Or.inl h
      · exact Or.inr h
    · rintro (h | h)
      · exact Or.inl h
      · by_cases hx : k = x
        · exact Or.inl hx
        · exact Or.inr ⟨h, by simpa using hx⟩

theorem mem_counterItems (l : List Str) (p : Str × Nat) :
    p ∈ counterItems l ↔ p.1 ∈ l ∧ p.2 = l.count p.1 := by
  unfold counterItems
  rw [mem_foldr_insertSorted]
  simp only [List.not_mem_nil, or_false, List.mem_map]
  constructor
  · rintro ⟨k, hk, rfl⟩
    exact ⟨(mem_dedupKeys l k).mp hk, rfl⟩
  · rintro ⟨h1, h2⟩
    exact ⟨p.1, (mem_dedupKeys l p.1).mpr h1, by rw [← h2]⟩

theorem counterItems_key_mem (l : List Str) (k : Str) (h : k ∈ l) :
    (k, l.count k) ∈ counterItems l :=
  (mem_counterItems l (k, l.count k)).mpr ⟨h, rfl⟩

/-! ### Postchain concatenation -/

theorem take_one_flatten (l : List Char) : ∀ m,
    (((List.range (l.length - m)).map (fun i => (l.drop (m + i)).take 1))).flatten =
      l.drop m := by
  induction l with
  | nil =>
    intro m
    simp
  | cons a l' ih =>
    intro m
    cases m with
    | zero =>
      rw [show (a :: l').length - 0 = l'.length + 1 from by simp]
      rw [List.range_succ_eq_map, List.map_cons, List.map_map]
      rw [show (0 : Nat) + 0 = 0 from rfl, List.drop_zero]
      have harg : ((fun i => ((a :: l').drop (0 + i)).take 1) ∘ Nat.succ) =
          fun i => (l'.drop (0 + i)).take 1 := by
        funext i
        simp only [Function.comp, Nat.zero_add, List.drop_succ_cons]
      rw [harg, List.flatten_cons]
      rw [show List.range l'.length = List.range (l'.length - 0) from by rw [Nat.sub_zero]]
      rw [ih 0, List.drop_zero]
      simp
    | succ m' =>
      rw [show (a :: l').length - (m' + 1) = l'.length - m' from by simp]
      have harg : (fun i => ((a :: l').drop (m' + 1 + i)).take 1) =
          fun i => (l'.drop (m' + i)).take 1 := by
        funext i
        rw [show m' + 1 + i = (m' + i) + 1 from by omega, List.drop_succ_cons]
      rw [harg, ih m', List.drop_succ_cons]

theorem postchain_flatten (word : Str) (ngram_length : Nat) (with_ending : Bool)
    (hN : 1 ≤ ngram_length) :
    ((build_ngrams_of_word word ngram_length with_ending).map
        build_postchain_from_ngram).flatten =
      word ++ (if with_ending then endStr else []) := by
  rw [bnow_eq_slide]
  set aug := augmentedWord word ngram_length with_ending with haug
  unfold slideWindows
  rw [List.map_map]
  have harg : ∀ i ∈ List.range (aug.length + 1 - ngram_length),
      (build_postchain_from_ngram ∘ fun i => (aug.drop i).take ngram_length) i =
        (aug.drop (ngram_length - 1 + i)).take 1 := by
    intro i hi
    rw [List.mem_range] at hi
    simp only [Function.comp]
    unfold build_postchain_from_ngram
    rw [window_takeR_one ngram_length aug i hN (by omega)]
    rw [show i + ngram_length - 1 = ngram_length - 1 + i from by omega]
  rw [List.map_congr_left harg]
  rw [show aug.length + 1 - ngram_length = aug.length - (ngram_length - 1) from by omega]
  rw [take_one_flatten aug (ngram_length - 1)]
  rw [haug]
  unfold augmentedWord
  rw [List.append_assoc]
  rw [List.drop_append_eq_append_drop]
  rw [show ngram_length - 1 - (List.replicate (ngram_length - 1) START_CHARACTER).length = 0
    from by simp]
  rw [List.drop_zero]
  rw [List.drop_eq_nil_of_le (by simp)]
  rw [List.nil_append]

/-! ### The training fold -/

theorem sumKey_length : sumKey.length = 5 := by decide

theorem ne_sumKey_of_length_one (k : Str) (h : k.length = 1) : k ≠ sumKey := by
  intro he
  rw [he, sumKey_length] at h
  exact absurd h (by omega)

theorem trainStep_mem_split (P : Str → Str → Prop) (t : Table) (p : Str × Nat)
    (h0 : ∀ pd ∈ t, ∀ q ∈ pd.2, P pd.1 q.1)
    (hp : P (build_prechain_from_ngram p.1) (build_postchain_from_ngram p.1)) :
    ∀ pd ∈ trainStep t p, ∀ q ∈ pd.2, P pd.1 q.1 := by
  intro pd hpd q hq
  unfold trainStep at hpd
  rcases mem_ainsert _ _ _ pd hpd with h | h
  · subst h
    rcases mem_ainsert _ _ _ q hq with h' | h'
    · subst h'
      exact hp
    · cases hl : alookup t (build_prechain_from_ngram p.1) with
      | none =>
        rw [hl] at h'
        exact absurd h' (List.not_mem_nil q)
      | some d0 =>
        rw [hl] at h'
        exact h0 _ (mem_of_alookup _ _ _ hl) q h'
  · exact h0 pd h q hq

theorem fold_mem_split (P : Str → Str → Prop) (L : List (Str × Nat)) :
    ∀ t0 : Table, (∀ pd ∈ t0, ∀ q ∈ pd.2, P pd.1 q.1) →
    (∀ p ∈ L, P (build_prechain_from_ngram p.1) (build_postchain_from_ngram p.1)) →
    ∀ pd ∈ L.foldl trainStep t0, ∀ q ∈ pd.2, P pd.1 q.1 := by
  induction L with
  | nil =>
    intro t0 h0 _
    exact h0
  | cons p L ih =>
    intro t0 h0 hL
    rw [List.foldl_cons]
    exact ih (trainStep t0 p)
      (trainStep_mem_split P t0 p h0 (hL p (List.mem_cons_self p L)))
      (fun x hx => hL x (List.mem_cons_of_mem p hx))

theorem trainStep_pair_mono (t : Table) (x : Str × Nat) (pre post : Str)
    (h : ∃ d v, alookup t pre = some d ∧ alookup d post = some v) :
    ∃ d v, alookup (trainStep t x) pre = some d ∧ alookup d post = some v := by
  obtain ⟨d, v, hd, hv⟩ := h
  unfold trainStep
  by_cases hp : pre = build_prechain_from_ngram x.1
  · subst hp
    refine ⟨ainsert d (build_postchain_from_ngram x.1) x.2, ?_⟩
    rw [alookup_ainsert, if_pos rfl, hd]
    by_cases hq : post = build_postchain_from_ngram x.1
    · exact ⟨x.2, by rw [Option.getD_some], by rw [alookup_ainsert, if_pos hq]⟩
    · exact ⟨v, by rw [Option.getD_some], by rw [alookup_ainsert, if_neg hq]; exact hv⟩
  · refine ⟨d, v, ?_, hv⟩
    rw [alookup_ainsert, if_neg hp]
    exact hd

theorem fold_pair_mono (L : List (Str × Nat)) : ∀ (t0 : Table) (pre post : Str),
    (∃ d v, alookup t0 pre = some d ∧ alookup d post = some v) →
    ∃ d v, alookup (L.foldl trainStep t0) pre = some d ∧ alookup d post = some v := by
  induction L with
  | nil =>
    intro t0 pre post h
    exact h
  | cons x L ih =>
    intro t0 pre post h
    rw [List.foldl_cons]
    exact ih (trainStep t0 x) pre post (trainStep_pair_mono t0 x pre post h)

theorem fold_pair_present (L : List (Str × Nat)) : ∀ (t0 : Table), ∀ p ∈ L,
    ∃ d v, alookup (L.foldl trainStep t0) (build_prechain_from_ngram p.1) = some d ∧
      alookup d (build_postchain_from_ngram p.1) = some v := by
  induction L with
  | nil =>
    intro t0 p hp
    exact absurd hp (List.not_mem_nil p)
  | cons x L ih =>
    intro t0 p hp
    rw [List.foldl_cons]
    rcases List.mem_cons.mp hp with h | h
    · subst h
      apply fold_pair_mono
      refine ⟨ainsert ((alookup t0 (build_prechain_from_ngram p.1)).getD [])
        (build_postchain_from_ngram p.1) p.2, p.2, ?_, ?_⟩
      · unfold trainStep
        rw [alookup_ainsert, if_pos rfl]
      · rw [alookup_ainsert, if_pos rfl]
    · exact ih (trainStep t0 x) p h

theorem trainStep_shape (N : Nat) (hN : 1 ≤ N) (t : Table) (p : Str × Nat)
    (hp : p.1.length = N)
    (h1 : (t.map Prod.fst).Nodup)
    (h2 : ∀ pd ∈ t, pd.1.length = N - 1 ∧ (pd.2.map Prod.fst).Nodup ∧
      (∀ q ∈ pd.2, q.1.length = 1) ∧ pd.2 ≠ []) :
    ((trainStep t p).map Prod.fst).Nodup ∧
    ∀ pd ∈ trainStep t p, pd.1.length = N - 1 ∧ (pd.2.map Prod.fst).Nodup ∧
      (∀ q ∈ pd.2, q.1.length = 1) ∧ pd.2 ≠ [] := by
  have hpost : (build_postchain_from_ngram p.1).length = 1 := by
    unfold build_postchain_from_ngram
    rw [takeR_length]
    omega
  have hd0 : ((alookup t (build_prechain_from_ngram p.1)).getD [] |>.map Prod.fst).Nodup ∧
      (∀ q ∈ (alookup t (build_prechain_from_ngram p.1)).getD [], q.1.length = 1) := by
    cases hl : alookup t (build_prechain_from_ngram p.1) with
    | none =>
      constructor
      · exact List.nodup_nil
      · intro q hq
        exact absurd hq (List.not_mem_nil q)
    | some d0 =>
      have hmem := mem_of_alookup _ _ _ hl
      rw [Option.getD_some]
      exact ⟨(h2 _ hmem).2.1, (h2 _ hmem).2.2.1⟩
  constructor
  · unfold trainStep
    exact ainsert_keys_nodup _ _ _ h1
  · intro pd hpd
    unfold trainStep at hpd
    rcases mem_ainsert _ _ _ pd hpd with h | h
    · subst h
      refine ⟨?_, ?_, ?_, ?_⟩
      · unfold build_prechain_from_ngram
        rw [List.length_dropLast, hp]
      · exact ainsert_keys_nodup _ _ _ hd0.1
      · intro q hq
        rcases mem_ainsert _ _ _ q hq with h' | h'
        · rw [h']
          exact hpost
        · exact hd0.2 q h'
      · intro hnil
        have hm := ainsert_self_mem ((alookup t (build_prechain_from_ngram p.1)).getD [])
          (build_postchain_from_ngram p.1) p.2
        rw [show (build_prechain_from_ngram p.1,
            ainsert ((alookup t (build_prechain_from_ngram p.1)).getD [])
              (build_postchain_from_ngram p.1) p.2).2 =
          ainsert ((alookup t (build_prechain_from_ngram p.1)).getD [])
            (build_postchain_from_ngram p.1) p.2 from rfl] at hnil
        rw [hnil] at hm
        exact absurd hm (List.not_mem_nil _)
    · exact h2 pd h

theorem fold_shape (N : Nat) (hN : 1 ≤ N) (L : List (Str × Nat))
    (hL : ∀ p ∈ L, p.1.length = N) : ∀ t0 : Table,
    (t0.map Prod.fst).Nodup →
    (∀ pd ∈ t0, pd.1.length = N - 1 ∧ (pd.2.map Prod.fst).Nodup ∧
      (∀ q ∈ pd.2, q.1.length = 1) ∧ pd.2 ≠ []) →
    ((L.foldl trainStep t0).map Prod.fst).Nodup ∧
    ∀ pd ∈ L.foldl trainStep t0, pd.1.length = N - 1 ∧ (pd.2.map Prod.fst).Nodup ∧
      (∀ q ∈ pd.2, q.1.length = 1) ∧ pd.2 ≠ [] := by
  induction L with
  | nil =>
    intro t0 h1 h2
    exact ⟨h1, h2⟩
  | cons p L ih =>
    intro t0 h1 h2
    have hstep := trainStep_shape N hN t0 p (hL p (List.mem_cons_self p L)) h1 h2
    rw [List.foldl_cons]
    exact ih (fun x hx => hL x (List.mem_cons_of_mem p hx)) (trainStep t0 p) hstep.1 hstep.2

theorem allNgrams_mem_length (ws : List Str) (N : Nat) :
    ∀ ng ∈ allNgrams ws N, ng.length = N := by
  intro ng h
  unfold allNgrams at h
  rw [List.mem_flatten] at h
  obtain ⟨l, hl, hng⟩ := h
  rw [List.mem_map] at hl
  obtain ⟨w, _, rfl⟩ := hl
  rw [bnow_eq_slide, mem_slideWindows] at hng
  obtain ⟨i, hi, rfl⟩ := hng
  exact window_length N _ i hi

theorem alookup_map_value (m : Table) (k : Str) :
    alookup (m.map (fun p => (p.1, ainsert p.2 sumKey ((p.2.map Prod.snd).sum)))) k =
      (alookup m k).map (fun d => ainsert d sumKey ((d.map Prod.snd).sum)) := by
  induction m with
  | nil => rfl
  | cons p rest ih =>
    rw [List.map_cons, alookup_cons, alookup_cons]
    by_cases hp : p.1 = k
    · rw [if_pos hp, if_pos hp]
      rfl
    · rw [if_neg hp, if_neg hp, ih]

theorem map_value_keys (m : Table) :
    (m.map (fun p => (p.1, ainsert p.2 sumKey ((p.2.map Prod.snd).sum)))).map Prod.fst =
      m.map Prod.fst := by
  rw [List.map_map]
  rfl

theorem train_eq (ws : List Str) (model_order : Nat) :
    train ws model_order =
      ((counterItems (allNgrams ws (model_order + 1))).foldl trainStep []).map
        (fun p => (p.1, ainsert p.2 sumKey ((p.2.map Prod.snd).sum))) := rfl

theorem dropLast_append_takeR_one {α : Type} (l : List α) :
    l.dropLast ++ takeR 1 l = l := by
  rw [List.dropLast_eq_take]
  unfold takeR
  exact List.take_append_drop (l.length - 1) l

theorem train_wf (ws : List Str) (model_order : Nat) :
    TableWF (train ws model_order) model_order := by
  have hlen : ∀ p ∈ counterItems (allNgrams ws (model_order + 1)),
      p.1.length = model_order + 1 := by
    intro p hp
    rw [mem_counterItems] at hp
    exact allNgrams_mem_length ws (model_order + 1) p.1 hp.1
  have hshape := fold_shape (model_order + 1) (by omega)
    (counterItems (allNgrams ws (model_order + 1))) hlen []
    (by simp)
    (by
      intro pd hpd
      exact absurd hpd (List.not_mem_nil pd))
  rw [train_eq]
  unfold TableWF
  constructor
  · rw [map_value_keys]
    exact hshape.1
  · intro p hp
    rw [List.mem_map] at hp
    obtain ⟨q, hq, rfl⟩ := hp
    obtain ⟨hqlen, hqnodup, hqkeys, hqne⟩ := hshape.2 q hq
    have hnots : sumKey ∉ q.2.map Prod.fst := by
      intro hmem
      rw [List.mem_map] at hmem
      obtain ⟨x, hx, hxe⟩ := hmem
      exact ne_sumKey_of_length_one x.1 (hqkeys x hx) hxe
    have hins : ainsert q.2 sumKey ((q.2.map Prod.snd).sum) =
        q.2 ++ [(sumKey, (q.2.map Prod.snd).sum)] := ainsert_of_not_mem _ _ _ hnots
    have hfilter : (q.2 ++ [(sumKey, (q.2.map Prod.snd).sum)]).filter
        (fun x => x.1 ≠ sumKey) = q.2 := by
      rw [List.filter_append]
      have h1 : q.2.filter (fun x => x.1 ≠ sumKey) = q.2 :=
        List.filter_eq_self.mpr (fun x hx => by
          simpa using ne_sumKey_of_length_one x.1 (hqkeys x hx))
      have h2 : ([(sumKey, (q.2.map Prod.snd).sum)] : CDict).filter
          (fun x => x.1 ≠ sumKey) = [] := by
        simp
      rw [h1, h2, List.append_nil]
    refine ⟨?_, ?_, ?_, ?_, ?_⟩
    · show q.1.length = model_order
      omega
    · show ((ainsert q.2 sumKey ((q.2.map Prod.snd).sum)).map Prod.fst).Nodup
      exact ainsert_keys_nodup _ _ _ hqnodup
    · show alookup (ainsert q.2 sumKey ((q.2.map Prod.snd).sum)) sumKey = _
      rw [alookup_ainsert, if_pos rfl, hins, hfilter]
    · intro x hx hxs
      rw [hins] at hx
      rcases List.mem_append.mp hx with h | h
      · exact hqkeys x h
      · rw [List.mem_singleton] at h
        exact absurd (by rw [h]) hxs
    · show (ainsert q.2 sumKey ((q.2.map Prod.snd).sum)).filter (fun x => x.1 ≠ sumKey) ≠ []
      rw [hins, hfilter]
      exact hqne

theorem train_pair_of_ngram (ws : List Str) (model_order : Nat) (ng : Str)
    (h : ng ∈ allNgrams ws (model_order + 1)) :
    ∃ d v, alookup (train ws model_order) (build_prechain_from_ngram ng) = some d ∧
      alookup d (build_postchain_from_ngram ng) = some v := by
  have hng1 : ng.length = model_order + 1 := allNgrams_mem_length ws (model_order + 1) ng h
  have hpost : (build_postchain_from_ngram ng).length = 1 := by
    unfold build_postchain_from_ngram
    rw [takeR_length]
    omega
  obtain ⟨d, v, hd, hv⟩ := fold_pair_present (counterItems (allNgrams ws (model_order + 1))) []
    (ng, (allNgrams ws (model_order + 1)).count ng) (counterItems_key_mem _ _ h)
  rw [train_eq, alookup_map_value]
  rw [show (ng, (allNgrams ws (model_order + 1)).count ng).1 = ng from rfl] at hd hv
  rw [hd]
  refine ⟨ainsert d sumKey ((d.map Prod.snd).sum), v, rfl, ?_⟩
  rw [alookup_ainsert, if_neg (ne_sumKey_of_length_one _ hpost)]
  exact hv

theorem train_pair_to_ngram (ws : List Str) (model_order : Nat) (pre post : Str) (d : CDict)
    (cnt : Nat) (hd : alookup (train ws model_order) pre = some d)
    (hv : alookup d post = some cnt) (hpost : post ≠ sumKey) :
    ∃ ng ∈ allNgrams ws (model_order + 1),
      pre = build_prechain_from_ngram ng ∧ post = build_postchain_from_ngram ng := by
  rw [train_eq, alookup_map_value] at hd
  cases hl : alookup ((counterItems (allNgrams ws (model_order + 1))).foldl trainStep []) pre with
  | none =>
    rw [hl] at hd
    exact absurd hd (by simp)
  | some d0 =>
    rw [hl] at hd
    have hdd : d = ainsert d0 sumKey ((d0.map Prod.snd).sum) := by
      simp only [Option.map_some'] at hd
      exact (Option.some_inj.mp hd).symm
    rw [hdd, alookup_ainsert, if_neg hpost] at hv
    exact fold_mem_split
      (fun a b => ∃ ng ∈ allNgrams ws (model_order + 1),
        a = build_prechain_from_ngram ng ∧ b = build_postchain_from_ngram ng)
      (counterItems (allNgrams ws (model_order + 1))) []
      (by
        intro pd hpd
        exact absurd hpd (List.not_mem_nil pd))
      (by
        intro p hp
        rw [mem_counterItems] at hp
        exact ⟨p.1, hp.1, rfl, rfl⟩)
      (pre, d0) (mem_of_alookup _ _ _ hl) (post, cnt) (mem_of_alookup _ _ _ hv)

/-! ### Probability bounds -/

theorem ne_sumKey_of_length_le_one (k : Str) (h : k.length ≤ 1) : k ≠ sumKey := by
  intro he
  rw [he, sumKey_length] at h
  exact absurd h (by omega)

theorem find_ngram_probability_nonneg (t : Table) (ng : Str) :
    0 ≤ find_ngram_probability t ng := by
  unfold find_ngram_probability
  split
  · exact le_refl 0
  · split
    · exact le_refl 0
    · exact div_nonneg (Nat.cast_nonneg _) (Nat.cast_nonneg _)

theorem find_ngram_probability_le_one (ws : List Str) (model_order : Nat) (ng : Str) :
    find_ngram_probability (train ws model_order) ng ≤ 1 := by
  unfold find_ngram_probability
  split
  · exact zero_le_one
  next transition hpre =>
    split
    · exact zero_le_one
    next cnt hpost =>
      have hwf := (train_wf ws model_order).2 _ (mem_of_alookup _ _ _ hpre)
      have hsum : alookup transition sumKey =
          some (((transition.filter (fun q => q.1 ≠ sumKey)).map Prod.snd).sum) := hwf.2.2.1
      rw [hsum, Option.getD_some]
      have hne : build_postchain_from_ngram ng ≠ sumKey := by
        apply ne_sumKey_of_length_le_one
        unfold build_postchain_from_ngram
        rw [takeR_length]
        omega
      have hmemf : (build_postchain_from_ngram ng, cnt) ∈
          transition.filter (fun q => q.1 ≠ sumKey) :=
        List.mem_filter.mpr ⟨mem_of_alookup _ _ _ hpost, by simpa using hne⟩
      have hle : cnt ≤ ((transition.filter (fun q => q.1 ≠ sumKey)).map Prod.snd).sum :=
        List.single_le_sum (fun x _ => Nat.zero_le x) cnt
          (List.mem_map.mpr ⟨_, hmemf, rfl⟩)
      rcases Nat.eq_zero_or_pos ((transition.filter (fun q => q.1 ≠ sumKey)).map Prod.snd).sum
        with hz | hpos
      · rw [hz]
        rw [hz] at hle
        rw [Nat.le_zero.mp hle]
        norm_num
      · rw [div_le_one (by exact_mod_cast hpos)]
        exact_mod_cast hle

theorem foldl_mul_bounds (l : List ℚ) (hl : ∀ x ∈ l, 0 ≤ x ∧ x ≤ 1) :
    ∀ a : ℚ, 0 ≤ a → a ≤ 1 → 0 ≤ l.foldl (· * ·) a ∧ l.foldl (· * ·) a ≤ 1 := by
  induction l with
  | nil =>
    intro a h0 h1
    exact ⟨h0, h1⟩
  | cons x xs ih =>
    intro a h0 h1
    have hx := hl x (List.mem_cons_self x xs)
    rw [List.foldl_cons]
    exact ih (fun y hy => hl y (List.mem_cons_of_mem x hy)) (a * x)
      (mul_nonneg h0 hx.1) (mul_le_one₀ h1 hx.1 hx.2)

theorem foldl_mul_nonneg (l : List ℚ) (hl : ∀ x ∈ l, 0 ≤ x) :
    ∀ a : ℚ, 0 ≤ a → 0 ≤ l.foldl (· * ·) a := by
  induction l with
  | nil =>
    intro a h0
    exact h0
  | cons x xs ih =>
    intro a h0
    rw [List.foldl_cons]
    exact ih (fun y hy => hl y (List.mem_cons_of_mem x hy)) (a * x)
      (mul_nonneg h0 (hl x (List.mem_cons_self x xs)))

theorem find_word_probability_nonneg (t : Table) (model_order : Nat) (word : Str) (e : Bool) :
    0 ≤ (find_word_probability t model_order word e).1 := by
  unfold find_word_probability
  apply foldl_mul_nonneg
  · intro x hx
    rw [List.mem_map] at hx
    obtain ⟨ng, _, rfl⟩ := hx
    exact find_ngram_probability_nonneg t ng
  · exact zero_le_one

theorem find_word_probability_le_one (ws : List Str) (model_order : Nat) (word : Str)
    (e : Bool) : (find_word_probability (train ws model_order) model_order word e).1 ≤ 1 := by
  unfold find_word_probability
  refine (foldl_mul_bounds _ ?_ 1 zero_le_one (le_refl 1)).2
  intro x hx
  rw [List.mem_map] at hx
  obtain ⟨ng, _, rfl⟩ := hx
  exact ⟨find_ngram_probability_nonneg _ ng, find_ngram_probability_le_one ws model_order ng⟩

/-! ### Claim C4: the cached total -/

/-- C4: after `train()`, every prechain's transition dict carries, under the
`##sum` key, exactly the sum of the occurrence counts of its postchains. -/
theorem train_sum_cached (ws : List Str) (model_order : Nat) :
    ∀ p ∈ train ws model_order,
      alookup p.2 sumKey =
        some (((p.2.filter (fun q => q.1 ≠ sumKey)).map Prod.snd).sum) := by
  intro p hp
  exact ((train_wf ws model_order).2 p hp).2.2.1

/-- Witness for C4 at the example dictionary, order 2, prechain `"ca"`. -/
theorem train_sum_cached_witness :
    alookup exEntry.2 sumKey =
      some (((exEntry.2.filter (fun q => q.1 ≠ sumKey)).map Prod.snd).sum) :=
  train_sum_cached exWords 2 exEntry (by decide)

/-! ### Claim C8: n-gram counts -/

/-- C8: with ending the augmented sequence has length `L + N` and there are
`L + 1` n-grams; without ending there are `L` n-grams. -/
theorem bnow_counts (word : Str) (ngram_length : Nat) (hN : 1 ≤ ngram_length) :
    (augmentedWord word ngram_length true).length = word.length + ngram_length ∧
    (build_ngrams_of_word word ngram_length true).length = word.length + 1 ∧
    (build_ngrams_of_word word ngram_length false).length = word.length := by
  have h1 := augmentedWord_length word ngram_length true
  have h2 := augmentedWord_length word ngram_length false
  refine ⟨by rw [h1]; simp; omega, ?_, ?_⟩
  · rw [bnow_eq_slide, slideWindows_length, h1]
    simp
    omega
  · rw [bnow_eq_slide, slideWindows_length, h2]
    simp
    omega

/-- Witness for C8 at the word `"cat"` and n-gram length 3. -/
theorem bnow_counts_witness :
    (augmentedWord (("cat").data) 3 true).length = ("cat").data.length + 3 ∧
    (build_ngrams_of_word (("cat").data) 3 true).length = ("cat").data.length + 1 ∧
    (build_ngrams_of_word (("cat").data) 3 false).length = ("cat").data.length :=
  bnow_counts (("cat").data) 3 (by omega)

/-! ### Claim C7: postchain concatenation -/

/-- C7 as stated is false: for `"cat"` with n-gram length 3 the concatenated
postchains rebuild `"cat$"`, not the padded form `"^^cat$"`. -/
theorem postchain_flatten_counterexample :
    ((build_ngrams_of_word (("cat").data) 3 true).map build_postchain_from_ngram).flatten ≠
      augmentedWord (("cat").data) 3 true := by decide

/-- C7 amended: concatenating the postchains of all n-grams rebuilds the
word followed by END when `with_ending` (the padded form with its START
padding removed); the START padding itself is only carried by prechains. -/
theorem postchain_flatten_amended (word : Str) (ngram_length : Nat) (with_ending : Bool)
    (hN : 1 ≤ ngram_length) :
    ((build_ngrams_of_word word ngram_length with_ending).map
        build_postchain_from_ngram).flatten =
      word ++ (if with_ending then endStr else []) :=
  postchain_flatten word ngram_length with_ending hN

/-- Witness for the amended C7 at `"cat"`, n-gram length 3, with ending. -/
theorem postchain_flatten_amended_witness :
    ((build_ngrams_of_word (("cat").data) 3 true).map
        build_postchain_from_ngram).flatten =
      ("cat").data ++ (if true then endStr else []) :=
  postchain_flatten_amended (("cat").data) 3 true (by omega)

/-! ### Claim C6: dictionary view consistency -/

/-- C6 fails as stated: `map_words` rebuilds the set view from the already
transformed word list, so starting from the consistent one-word dictionary
`{"a"}` and applying the injective, non-idempotent transform that prepends
`"x"`, the transformed word `"xa"` is in the list view while the set view
only holds `"xxa"`: `__contains__` disagrees with the word list. -/
theorem membership_consistency_counterexample :
    Function.Injective (fun w : Str => ("x").data ++ w) ∧
    viewsAgree ⟨[("a").data], {("a").data}⟩ ∧
    ("xa").data ∈ (map_words ⟨[("a").data], {("a").data}⟩
      (fun w => ("x").data ++ w)).words ∧
    ¬ dictionary_contains (map_words ⟨[("a").data], {("a").data}⟩
      (fun w => ("x").data ++ w)) (("xa").data) := by
  refine ⟨?_, ?_, by decide, by unfold dictionary_contains; decide⟩
  · intro a b h
    simpa using h
  · intro w
    unfold dictionary_contains
    simp

/-- C6 amended: if the two dictionary views agree, they still agree after
`filter_words`; `map_words` applies the transform exactly once to each word
of the list view but builds the set view from the already transformed list
(so the transform lands twice on the set view), hence membership via
`__contains__` agrees with the word list after `map_words` for every
idempotent transform, such as the lowercasing the repository uses. -/
theorem membership_consistency_amended (d : Dictionary) (filter_predicate : Str → Bool)
    (transform : Str → Str) (hagree : viewsAgree d)
    (hidem : ∀ w, transform (transform w) = transform w) :
    viewsAgree (filter_words d filter_predicate) ∧ viewsAgree (map_words d transform) ∧
    (map_words d transform).words = d.words.map transform ∧
    (map_words d transform).words_set =
      ((d.words.map transform).map transform).toFinset := by
  refine ⟨?_, ?_, rfl, rfl⟩
  · intro w
    unfold dictionary_contains filter_words
    simp only [Finset.mem_filter, List.mem_filter]
    rw [show (w ∈ d.words_set) = dictionary_contains d w from rfl, hagree w]
  · intro w
    show w ∈ ((d.words.map transform).map transform).toFinset ↔ w ∈ d.words.map transform
    have hmap : List.map (transform ∘ transform) d.words = List.map transform d.words :=
      List.map_congr_left (fun a _ => hidem a)
    rw [List.mem_toFinset, List.map_map, hmap]

/-- Witness for the amended C6 at the empty dictionary, the constantly-true
filter and the (idempotent) identity transform. -/
theorem membership_consistency_witness :
    viewsAgree (filter_words exEmptyDict (fun _ => true)) ∧
    viewsAgree (map_words exEmptyDict (fun w => w)) ∧
    (map_words exEmptyDict (fun w => w)).words = exEmptyDict.words.map (fun w => w) ∧
    (map_words exEmptyDict (fun w => w)).words_set =
      ((exEmptyDict.words.map (fun w => w)).map (fun w => w)).toFinset :=
  membership_consistency_amended exEmptyDict (fun _ => true) (fun w => w)
    (by
      intro w
      unfold dictionary_contains exEmptyDict
      simp)
    (fun w => rfl)

/-! ### Claim C9: language membership -/

theorem sum_map_div (l : List ℚ) (s : ℚ) :
    (l.map (fun p => p / s)).sum = l.sum / s := by
  induction l with
  | nil => simp
  | cons a l ih =>
    simp only [List.map_cons, List.sum_cons, ih]
    rw [add_div]

theorem eq_zero_of_mem_of_sum_eq_zero (l : List ℚ) (h0 : ∀ x ∈ l, 0 ≤ x)
    (hs : l.sum = 0) : ∀ x ∈ l, x = 0 := by
  induction l with
  | nil =>
    intro x hx
    exact absurd hx (List.not_mem_nil x)
  | cons a l ih =>
    rw [List.sum_cons] at hs
    have ha : 0 ≤ a := h0 a (List.mem_cons_self a l)
    have hl : 0 ≤ l.sum := List.sum_nonneg (fun x hx => h0 x (List.mem_cons_of_mem a hx))
    have ha0 : a = 0 := by linarith
    have hl0 : l.sum = 0 := by linarith
    intro x hx
    rcases List.mem_cons.mp hx with h | h
    · rw [h, ha0]
    · exact ih (fun y hy => h0 y (List.mem_cons_of_mem a hy)) hl0 x h

theorem language_probabilities_nonneg (word : Str) (ms : List (Table × Nat)) :
    ∀ p ∈ language_probabilities word ms, 0 ≤ p := by
  intro p hp
  unfold language_probabilities at hp
  rw [List.mem_map] at hp
  obtain ⟨m, _, rfl⟩ := hp
  exact find_word_probability_nonneg m.1 m.2 word true

/-- C9: each membership value is the model's probability scalar divided by
the sum of all scalars, with divisor 1 when that sum is 0 (yielding the
all-zero vector), and the vector sums to 1 whenever some scalar is
nonzero. -/
theorem language_membership_spec (word : Str) (models : List (List Str × Nat)) :
    language_membership word (models.map (fun m => (train m.1 m.2, m.2))) =
      (language_probabilities word (models.map (fun m => (train m.1 m.2, m.2)))).map
        (fun p => p /
          (if (language_probabilities word
              (models.map (fun m => (train m.1 m.2, m.2)))).sum = 0 then 1
           else (language_probabilities word
              (models.map (fun m => (train m.1 m.2, m.2)))).sum)) ∧
    ((language_probabilities word (models.map (fun m => (train m.1 m.2, m.2)))).sum = 0 →
      ∀ x ∈ language_membership word (models.map (fun m => (train m.1 m.2, m.2))), x = 0) ∧
    ((∃ p ∈ language_probabilities word (models.map (fun m => (train m.1 m.2, m.2))),
        p ≠ 0) →
      (language_membership word (models.map (fun m => (train m.1 m.2, m.2)))).sum = 1) := by
  set ms := models.map (fun m => (train m.1 m.2, m.2)) with hms
  refine ⟨rfl, ?_, ?_⟩
  · intro hsum x hx
    unfold language_membership at hx
    rw [List.mem_map] at hx
    obtain ⟨p, hp, rfl⟩ := hx
    have hp0 : p = 0 :=
      eq_zero_of_mem_of_sum_eq_zero _ (language_probabilities_nonneg word ms) hsum p hp
    rw [hp0, zero_div]
  · intro hex
    have hsum : (language_probabilities word ms).sum ≠ 0 := by
      intro hz
      obtain ⟨p, hp, hpne⟩ := hex
      exact hpne
        (eq_zero_of_mem_of_sum_eq_zero _ (language_probabilities_nonneg word ms) hz p hp)
    show ((language_probabilities word ms).map
      (fun probability => probability /
        (if (language_probabilities word ms).sum = 0 then 1
         else (language_probabilities word ms).sum))).sum = 1
    rw [if_neg hsum, sum_map_div, div_self hsum]

/-- Witness for C9 at `"cat"` and the single example model of order 2. -/
theorem language_membership_spec_witness :
    language_membership (("cat").data) ([(exWords, 2)].map (fun m => (train m.1 m.2, m.2))) =
      (language_probabilities (("cat").data)
          ([(exWords, 2)].map (fun m => (train m.1 m.2, m.2)))).map
        (fun p => p /
          (if (language_probabilities (("cat").data)
              ([(exWords, 2)].map (fun m => (train m.1 m.2, m.2)))).sum = 0 then 1
           else (language_probabilities (("cat").data)
              ([(exWords, 2)].map (fun m => (train m.1 m.2, m.2)))).sum)) :=
  (language_membership_spec (("cat").data) [(exWords, 2)]).1


/-! ### Claim C3: probability scoring -/

theorem bnow_nil_false (ngram_length : Nat) (hN : 1 ≤ ngram_length) :
    build_ngrams_of_word [] ngram_length false = [] := by
  rw [bnow_eq_slide]
  unfold slideWindows
  rw [augmentedWord_length]
  rw [show ngram_length - 1 + List.length ([] : Str) + (if false then 1 else 0) + 1 -
    ngram_length = 0 from by simp; omega]
  rfl

theorem find_ngram_probability_pre_none (t : Table) (ng : Str)
    (h : alookup t (build_prechain_from_ngram ng) = none) :
    find_ngram_probability t ng = 0 := by
  unfold find_ngram_probability
  rw [h]

theorem find_ngram_probability_post_none (t : Table) (ng : Str) (d : CDict)
    (h1 : alookup t (build_prechain_from_ngram ng) = some d)
    (h2 : alookup d (build_postchain_from_ngram ng) = none) :
    find_ngram_probability t ng = 0 := by
  unfold find_ngram_probability
  split
  · rfl
  next transition hpre =>
    rw [h1] at hpre
    have hd : d = transition := Option.some_inj.mp hpre
    subst hd
    split
    · rfl
    next cnt hpost =>
      rw [h2] at hpost
      exact Option.noConfusion hpost

theorem find_ngram_probability_post_some (t : Table) (ng : Str) (d : CDict) (cnt : Nat)
    (h1 : alookup t (build_prechain_from_ngram ng) = some d)
    (h2 : alookup d (build_postchain_from_ngram ng) = some cnt) :
    find_ngram_probability t ng = (cnt : ℚ) / (((alookup d sumKey).getD 0 : Nat) : ℚ) := by
  unfold find_ngram_probability
  split
  next hpre =>
    rw [h1] at hpre
    exact Option.noConfusion hpre
  next transition hpre =>
    rw [h1] at hpre
    have hd : d = transition := Option.some_inj.mp hpre
    subst hd
    split
    next hpost =>
      rw [h2] at hpost
      exact Option.noConfusion hpost
    next cnt' hpost =>
      rw [h2] at hpost
      rw [Option.some_inj.mp hpost]

/-- C3: `find_word_probability` returns the ordered per-n-gram probability
list and its left-fold product; each per-n-gram probability is 0 for an
absent prechain, 0 for a present prechain but absent postchain, and
otherwise the postchain count over the cached prechain total; the empty
product is 1 (so the empty word without ending scores 1), and the total
lies in `[0, 1]`. -/
theorem find_word_probability_spec (ws : List Str) (model_order : Nat) (word : Str)
    (with_ending : Bool) :
    (find_word_probability (train ws model_order) model_order word with_ending).2 =
      (build_ngrams_of_word word (model_order + 1) with_ending).map
        (find_ngram_probability (train ws model_order)) ∧
    (find_word_probability (train ws model_order) model_order word with_ending).1 =
      ((find_word_probability (train ws model_order) model_order word with_ending).2).foldl
        (· * ·) 1 ∧
    (∀ ng : Str, alookup (train ws model_order) (build_prechain_from_ngram ng) = none →
      find_ngram_probability (train ws model_order) ng = 0) ∧
    (∀ (ng : Str) (d : CDict),
      alookup (train ws model_order) (build_prechain_from_ngram ng) = some d →
      alookup d (build_postchain_from_ngram ng) = none →
      find_ngram_probability (train ws model_order) ng = 0) ∧
    (∀ (ng : Str) (d : CDict) (cnt : Nat),
      alookup (train ws model_order) (build_prechain_from_ngram ng) = some d →
      alookup d (build_postchain_from_ngram ng) = some cnt →
      find_ngram_probability (train ws model_order) ng =
        (cnt : ℚ) / (((alookup d sumKey).getD 0 : Nat) : ℚ)) ∧
    (find_word_probability (train ws model_order) model_order [] false).1 = 1 ∧
    0 ≤ (find_word_probability (train ws model_order) model_order word with_ending).1 ∧
    (find_word_probability (train ws model_order) model_order word with_ending).1 ≤ 1 := by
  refine ⟨rfl, rfl, ?_, ?_, ?_, ?_, ?_, ?_⟩
  · intro ng h
    exact find_ngram_probability_pre_none _ ng h
  · intro ng d h1 h2
    exact find_ngram_probability_post_none _ ng d h1 h2
  · intro ng d cnt h1 h2
    exact find_ngram_probability_post_some _ ng d cnt h1 h2
  · show ((build_ngrams_of_word [] (model_order + 1) false).map
      (find_ngram_probability (train ws model_order))).foldl (· * ·) 1 = 1
    rw [bnow_nil_false (model_order + 1) (by omega)]
    rfl
  · exact find_word_probability_nonneg _ _ _ _
  · exact find_word_probability_le_one ws model_order word with_ending

/-- Witness for C3: the empty word without ending scores 1 on the example
model. -/
theorem find_word_probability_spec_witness :
    (find_word_probability (train exWords 2) 2 [] false).1 = 1 :=
  (find_word_probability_spec exWords 2 (("cat").data) true).2.2.2.2.2.1

/-! ### Claim C10: prechain closure -/

theorem window_shift (ngram_length : Nat) (l : Str) (i : Nat) (hN : 2 ≤ ngram_length)
    (h : i + ngram_length ≤ l.length) :
    ((l.drop i).take (ngram_length - 1)).tail ++ takeR 1 ((l.drop i).take ngram_length) =
      (l.drop (i + 1)).take (ngram_length - 1) := by
  rw [window_takeR_one ngram_length l i (by omega) h]
  have h1 : ((l.drop i).take (ngram_length - 1)).tail =
      (l.drop (i + 1)).take (ngram_length - 2) := by
    rw [← List.drop_one, List.drop_take, List.drop_drop]
    rw [show ngram_length - 1 - 1 = ngram_length - 2 from by omega]
  have h2 : (l.drop (i + ngram_length - 1)).take 1 =
      (((l.drop (i + 1)).drop (ngram_length - 2)).take 1) := by
    rw [List.drop_drop, show i + 1 + (ngram_length - 2) = i + ngram_length - 1 from by omega]
  rw [h1, h2, ← List.take_add]
  rw [show ngram_length - 2 + 1 = ngram_length - 1 from by omega]

theorem mem_allNgrams (ws : List Str) (ngram_length : Nat) (ng : Str) :
    ng ∈ allNgrams ws ngram_length ↔
      ∃ w ∈ ws, ∃ i, i + ngram_length ≤ (augmentedWord w ngram_length true).length ∧
        ng = ((augmentedWord w ngram_length true).drop i).take ngram_length := by
  unfold allNgrams
  rw [List.mem_flatten]
  constructor
  · rintro ⟨l, hl, hng⟩
    rw [List.mem_map] at hl
    obtain ⟨w, hw, rfl⟩ := hl
    rw [bnow_eq_slide, mem_slideWindows] at hng
    obtain ⟨i, hi, rfl⟩ := hng
    exact ⟨w, hw, i, hi, rfl⟩
  · rintro ⟨w, hw, i, hi, rfl⟩
    refine ⟨build_ngrams_of_word w ngram_length true, List.mem_map_of_mem _ hw, ?_⟩
    rw [bnow_eq_slide, mem_slideWindows]
    exact ⟨i, hi, rfl⟩

theorem augmentedWord_true_decomp (w : Str) (ngram_length : Nat) :
    augmentedWord w ngram_length true =
      (List.replicate (ngram_length - 1) START_CHARACTER ++ w) ++ endStr := by
  unfold augmentedWord
  simp

theorem train_initial_prechain (ws : List Str) (model_order : Nat) (hne : ws ≠ []) :
    ∃ d, alookup (train ws model_order)
      (List.replicate model_order START_CHARACTER) = some d := by
  obtain ⟨w, hw⟩ := List.exists_mem_of_ne_nil ws hne
  have hlen : (model_order + 1) ≤ (augmentedWord w (model_order + 1) true).length := by
    rw [augmentedWord_length]
    simp
  have hmem : ((augmentedWord w (model_order + 1) true).drop 0).take (model_order + 1) ∈
      allNgrams ws (model_order + 1) :=
    (mem_allNgrams ws (model_order + 1) _).mpr ⟨w, hw, 0, by omega, rfl⟩
  obtain ⟨d, v, hd, _⟩ := train_pair_of_ngram ws model_order _ hmem
  refine ⟨d, ?_⟩
  rw [← hd]
  congr 1
  unfold build_prechain_from_ngram
  rw [window_dropLast (model_order + 1) _ 0 (by omega)]
  rw [List.drop_zero]
  rw [augmentedWord_true_decomp, List.append_assoc]
  rw [List.take_append_eq_append_take, List.take_replicate]
  rw [List.length_replicate]
  rw [show model_order + 1 - 1 = model_order from by omega]
  simp

theorem train_prechain_closed (ws : List Str) (model_order : Nat)
    (hord : 1 ≤ model_order) (pre : Str) (d : CDict) (c : Str) (cnt : Nat)
    (hd : alookup (train ws model_order) pre = some d)
    (hc : alookup d c = some cnt) (hcs : c ≠ sumKey) (hce : c ≠ endStr) :
    ∃ d', alookup (train ws model_order) (pre.tail ++ c) = some d' := by
  obtain ⟨ng, hng, hpre, hpost⟩ := train_pair_to_ngram ws model_order pre c d cnt hd hc hcs
  rw [mem_allNgrams] at hng
  obtain ⟨w, hw, i, hi, rfl⟩ := hng
  set aug := augmentedWord w (model_order + 1) true with haug
  have hN2 : 2 ≤ model_order + 1 := by omega
  have hlast : i + (model_order + 1) < aug.length := by
    rcases Nat.lt_or_ge (i + (model_order + 1)) aug.length with h | h
    · exact h
    · exfalso
      apply hce
      rw [hpost]
      unfold build_postchain_from_ngram
      rw [window_takeR_one (model_order + 1) aug i (by omega) hi]
      rw [show i + (model_order + 1) - 1 = aug.length - 1 from by omega]
      rw [haug, augmentedWord_true_decomp]
      rw [show ((List.replicate (model_order + 1 - 1) START_CHARACTER ++ w) ++
          endStr).length - 1 =
        (List.replicate (model_order + 1 - 1) START_CHARACTER ++ w).length from by
          rw [List.length_append]
          simp [endStr]]
      rw [List.drop_left]
      rfl
  have hmem2 : ((aug.drop (i + 1)).take (model_order + 1)) ∈
      allNgrams ws (model_order + 1) :=
    (mem_allNgrams ws (model_order + 1) _).mpr ⟨w, hw, i + 1, by rw [← haug]; omega, rfl⟩
  obtain ⟨d', v', hd', _⟩ := train_pair_of_ngram ws model_order _ hmem2
  refine ⟨d', ?_⟩
  rw [← hd']
  congr 1
  unfold build_prechain_from_ngram
  rw [window_dropLast (model_order + 1) aug (i + 1) (by omega)]
  rw [hpre, hpost]
  unfold build_prechain_from_ngram build_postchain_from_ngram
  rw [window_dropLast (model_order + 1) aug i hi]
  exact window_shift (model_order + 1) aug i hN2 hi

theorem build_ngram_for_nil (model_order : Nat) (hord : 1 ≤ model_order) :
    build_ngram_for [] model_order = List.replicate model_order START_CHARACTER := by
  unfold build_ngram_for
  rw [if_neg (by omega)]
  rw [List.append_nil]
  exact takeR_all model_order _ (by rw [List.length_replicate])

theorem build_ngram_for_snoc (w : Str) (model_order : Nat) (ch : Char)
    (hord : 1 ≤ model_order) :
    build_ngram_for (w ++ [ch]) model_order =
      (build_ngram_for w model_order).tail ++ [ch] := by
  unfold build_ngram_for
  rw [if_neg (by omega), if_neg (by omega)]
  rw [show List.replicate model_order START_CHARACTER ++ (w ++ [ch]) =
    (List.replicate model_order START_CHARACTER ++ w) ++ [ch] from
    (List.append_assoc _ _ _).symm]
  obtain ⟨M, rfl⟩ : ∃ M, model_order = M + 1 := ⟨model_order - 1, by omega⟩
  have hlen : M ≤ (List.replicate (M + 1) START_CHARACTER ++ w).length := by
    rw [List.length_append, List.length_replicate]
    omega
  rw [takeR_succ_append M _ ch hlen]
  rw [tail_takeR (M + 1) _ (by omega)
    (by rw [List.length_append, List.length_replicate]; omega)]
  rw [Nat.add_sub_cancel]

/-- C10 fails as stated at model order 0: on the dictionary `{"ab"}` the
empty prechain is in the table and records the non-END postchain `"a"`, but
the shifted prechain `"a"` is not in the table. -/
theorem prechain_closure_counterexample :
    exWords0 ≠ [] ∧
    (alookup (train exWords0 0) [] =
        some [(endStr, 1), (("a").data, 1), (("b").data, 1), (sumKey, 3)] ∧
      alookup [(endStr, 1), (("a").data, 1), (("b").data, 1), (sumKey, 3)]
        (("a").data) = some 1 ∧
      ("a").data ≠ sumKey ∧ ("a").data ≠ endStr) ∧
    alookup (train exWords0 0) (List.tail [] ++ ("a").data) = none := by
  refine ⟨by decide, ⟨by decide, by decide, by decide, by decide⟩, by decide⟩

/-- C10 amended: restricted to model order ≥ 1 (so prechains are
non-empty), for every model trained on a non-empty dictionary the
all-START prechain is in the table, the prechain set is closed under
shifting by any recorded non-END postchain, and consequently every word
the best-first search reaches has its n-gram context in the table. -/
theorem prechain_closure_amended (ws : List Str) (model_order : Nat) (hne : ws ≠ [])
    (hord : 1 ≤ model_order) :
    (∃ d, alookup (train ws model_order)
        (List.replicate model_order START_CHARACTER) = some d) ∧
    (∀ (pre : Str) (d : CDict) (c : Str) (cnt : Nat),
      alookup (train ws model_order) pre = some d → alookup d c = some cnt →
      c ≠ sumKey → c ≠ endStr →
      ∃ d', alookup (train ws model_order) (pre.tail ++ c) = some d') ∧
    (∀ w : Str, Reachable (train ws model_order) model_order w →
      ∃ d, alookup (train ws model_order) (build_ngram_for w model_order) = some d) := by
  refine ⟨train_initial_prechain ws model_order hne, ?_, ?_⟩
  · intro pre d c cnt hd hc hcs hce
    exact train_prechain_closed ws model_order hord pre d c cnt hd hc hcs hce
  · intro w hr
    induction hr with
    | nil =>
      rw [build_ngram_for_nil model_order hord]
      exact train_initial_prechain ws model_order hne
    | step w d c cnt hr hd hc hcs hce ih =>
      have hc1 : c.length = 1 := by
        have hwf := (train_wf ws model_order).2 _ (mem_of_alookup _ _ _ hd)
        exact hwf.2.2.2.1 (c, cnt) (mem_of_alookup _ _ _ hc) hcs
      obtain ⟨ch, hch⟩ : ∃ ch, c = [ch] := by
        cases c with
        | nil => exact absurd hc1 (by simp)
        | cons a rest =>
          cases rest with
          | nil => exact ⟨a, rfl⟩
          | cons b rest2 => exact absurd hc1 (by simp)
      subst hch
      rw [build_ngram_for_snoc w model_order ch hord]
      exact train_prechain_closed ws model_order hord _ d [ch] cnt hd hc hcs hce

/-- Witness for the amended C10: on the example model of order 2 the
initial all-START prechain is present. -/
theorem prechain_closure_witness :
    (alookup (train exWords 2) (List.replicate 2 START_CHARACTER)).isSome = true := by
  obtain ⟨d, hd⟩ := (prechain_closure_amended exWords 2 (by decide) (by omega)).1
  rw [hd]
  rfl

/-! ### Claim C5: generation length bounds -/

theorem allNgrams_postchain (ws : List Str) (N : Nat) (hN : 1 ≤ N) :
    ∀ ng ∈ allNgrams ws N, build_postchain_from_ngram ng = endStr ∨
      ∃ w ∈ ws, ∃ ch, build_postchain_from_ngram ng = [ch] ∧ ch ∈ w := by
  intro ng hng
  rw [mem_allNgrams] at hng
  obtain ⟨w, hw, i, hi, rfl⟩ := hng
  set aug := augmentedWord w N true with haug
  unfold build_postchain_from_ngram
  rw [window_takeR_one N aug i hN hi]
  have hdec : aug = List.replicate (N - 1) START_CHARACTER ++ (w ++ endStr) := by
    rw [haug, augmentedWord_true_decomp, List.append_assoc]
  have hidx : i + N - 1 = (List.replicate (N - 1) START_CHARACTER).length + i := by
    rw [List.length_replicate]
    omega
  rw [hdec, hidx, List.drop_append]
  have hlt : i < (w ++ endStr).length := by
    have h1 : aug.length = (N - 1) + ((w ++ endStr).length) := by
      rw [hdec, List.length_append, List.length_replicate]
    have h2 : (w ++ endStr).length = w.length + 1 := by
      rw [List.length_append]
      rfl
    omega
  cases hdrop : (w ++ endStr).drop i with
  | nil =>
    exfalso
    have hld : (w ++ endStr).length - i = 0 := by
      rw [← List.length_drop, hdrop]
      rfl
    omega
  | cons ch rest =>
    have hch : ch ∈ w ++ endStr := by
      have hm : ch ∈ (w ++ endStr).drop i := by
        rw [hdrop]
        exact List.mem_cons_self ch rest
      exact List.mem_of_mem_drop hm
    rw [show List.take 1 (ch :: rest) = [ch] from rfl]
    rcases List.mem_append.mp hch with h | h
    · exact Or.inr ⟨w, hw, ch, rfl, h⟩
    · left
      unfold endStr at h
      rw [List.mem_singleton] at h
      rw [h]
      rfl

theorem train_inner_key_char (ws : List Str) (model_order : Nat) (pre : Str) (d : CDict)
    (hd : alookup (train ws model_order) pre = some d) :
    ∀ q ∈ d, q.1 ≠ sumKey →
      q.1 = endStr ∨ ∃ w ∈ ws, ∃ ch, q.1 = [ch] ∧ ch ∈ w := by
  intro q hq hqs
  rw [train_eq, alookup_map_value] at hd
  cases hl : alookup ((counterItems (allNgrams ws (model_order + 1))).foldl trainStep []) pre
    with
  | none =>
    rw [hl] at hd
    exact absurd hd (by simp)
  | some d0 =>
    rw [hl] at hd
    have hdd : d = ainsert d0 sumKey ((d0.map Prod.snd).sum) := by
      simp only [Option.map_some'] at hd
      exact (Option.some_inj.mp hd).symm
    rw [hdd] at hq
    rcases mem_ainsert _ _ _ q hq with h | h
    · exact absurd (by rw [h]) hqs
    · exact fold_mem_split
        (fun _ b => b = endStr ∨ ∃ w ∈ ws, ∃ ch, b = [ch] ∧ ch ∈ w)
        (counterItems (allNgrams ws (model_order + 1))) []
        (by
          intro pd hpd
          exact absurd hpd (List.not_mem_nil pd))
        (by
          intro p hp
          exact allNgrams_postchain ws (model_order + 1) (by omega) p.1
            ((mem_counterItems _ _).mp hp).1)
        (pre, d0) (mem_of_alookup _ _ _ hl) q h

theorem pickTransition_mem (items : List (Str × Nat)) : ∀ (r : Nat) (c : Str),
    pickTransition items r = some c → ∃ cnt, (c, cnt) ∈ items := by
  induction items with
  | nil =>
    intro r c h
    exact absurd h (by simp [pickTransition])
  | cons x rest ih =>
    intro r c h
    unfold pickTransition at h
    by_cases hr : r ≤ x.2
    · rw [if_pos hr] at h
      refine ⟨x.2, ?_⟩
      rw [← Option.some_inj.mp h]
      rw [show ((x.1, x.2) : Str × Nat) = x from rfl]
      exact List.mem_cons_self x rest
    · rw [if_neg hr] at h
      obtain ⟨cnt, hc⟩ := ih (r - x.2) c h
      exact ⟨cnt, List.mem_cons_of_mem x hc⟩

theorem gnc_cases (t : Table) (ng : Str) (ec : Bool) (r : Nat) (c : Str) (eb : Bool)
    (h : generate_next_character t ng ec r = some (c, eb)) :
    (c = endStr ∧ eb = true) ∨
    (eb = false ∧ (ec = false → c ≠ endStr) ∧ c ≠ sumKey ∧
      ∃ d cnt, alookup t ng = some d ∧ (c, cnt) ∈ d) := by
  unfold generate_next_character at h
  split at h
  · exact absurd h (by simp)
  next transition hl =>
    by_cases hitems :
        (if (!ec && (alookup transition endStr).isSome) = true then
          (transition.filter (fun x => x.1 ≠ sumKey)).filter (fun x => x.1 ≠ endStr)
        else transition.filter (fun x => x.1 ≠ sumKey)).length = 0
    · rw [if_pos hitems] at h
      left
      have := Option.some_inj.mp h
      exact ⟨congrArg Prod.fst this.symm, congrArg Prod.snd this.symm⟩
    · rw [if_neg hitems] at h
      by_cases hhi : ((alookup transition sumKey).getD 0 -
          (if (!ec && (alookup transition endStr).isSome) = true then
            (alookup transition endStr).getD 0 else 0)) = 0
      · rw [if_pos hhi] at h
        exact absurd h (by simp)
      · rw [if_neg hhi] at h
        cases hpick : pickTransition
            (if (!ec && (alookup transition endStr).isSome) = true then
              (transition.filter (fun x => x.1 ≠ sumKey)).filter (fun x => x.1 ≠ endStr)
            else transition.filter (fun x => x.1 ≠ sumKey))
            (randint1 ((alookup transition sumKey).getD 0 -
              (if (!ec && (alookup transition endStr).isSome) = true then
                (alookup transition endStr).getD 0 else 0)) r) with
        | none =>
          rw [hpick] at h
          exact absurd h (by simp)
        | some c0 =>
          rw [hpick] at h
          have hce : c0 = c ∧ eb = false := by
            have := Option.some_inj.mp h
            exact ⟨congrArg Prod.fst this, (congrArg Prod.snd this).symm⟩
          obtain ⟨hc0, heb⟩ := hce
          subst hc0
          obtain ⟨cnt, hcnt⟩ := pickTransition_mem _ _ _ hpick
          right
          by_cases hne : (!ec && (alookup transition endStr).isSome) = true
          · rw [if_pos hne] at hcnt
            have h1 := List.mem_filter.mp hcnt
            have h2 := List.mem_filter.mp h1.1
            refine ⟨heb, ?_, ?_, transition, cnt, hl, h2.1⟩
            · intro _
              simpa using h1.2
            · simpa using h2.2
          · rw [if_neg hne] at hcnt
            have h2 := List.mem_filter.mp hcnt
            refine ⟨heb, ?_, ?_, transition, cnt, hl, h2.1⟩
            · intro hecf
              rw [hecf] at hne
              simp only [Bool.not_false, Bool.true_and] at hne
              have hnone : alookup transition endStr = none := by
                cases halo : alookup transition endStr with
                | none => rfl
                | some x =>
                  rw [halo] at hne
                  exact absurd rfl hne
              intro hcend
              have hkeys := (alookup_eq_none transition endStr).mp hnone
              exact hkeys (hcend ▸ List.mem_map_of_mem Prod.fst h2.1)
            · simpa using h2.2

theorem generate_word_loop_bounds (ws : List Str) (model_order : Nat) (oracle : Nat → Nat)
    (hws : ∀ w ∈ ws, 5 ≤ w.length ∧ START_CHARACTER ∉ w ∧ END_CHARACTER ∉ w) :
    ∀ (fuel : Nat) (word next : Str) (forced : Bool) (idx : Nat) (res : Str) (forced2 : Bool),
    word.length ≤ 21 →
    START_CHARACTER ∉ word →
    (next = endStr → ∃ body, word = body ++ [END_CHARACTER] ∧ END_CHARACTER ∉ body ∧
      (forced = false → 5 ≤ body.length)) →
    (next ≠ endStr → END_CHARACTER ∉ word) →
    generate_word_loop (train ws model_order) model_order 5 (some 20) oracle
      fuel word next forced idx = some (res, forced2) →
    res.length ≤ 21 ∧ (forced2 = false → 5 ≤ res.length) := by
  intro fuel
  induction fuel with
  | zero =>
    intro word next forced idx res forced2 _ _ _ _ h
    exact absurd h (by simp [generate_word_loop])
  | succ fuel ih =>
    intro word next forced idx res forced2 hlen hstart hend hnend h
    unfold generate_word_loop at h
    by_cases hcond : next ≠ endStr ∧ lenOk word (some 20) = true
    · rw [if_pos hcond] at h
      have hlen20 : word.length ≤ 20 := by
        have h20 := hcond.2
        unfold lenOk at h20
        simpa using h20
      have hEword : END_CHARACTER ∉ word := hnend hcond.1
      cases hgnc : generate_next_character (train ws model_order)
          (build_ngram_for word model_order) (decide (5 ≤ word.length)) (oracle idx) with
      | none =>
        rw [hgnc] at h
        exact absurd h (by simp)
      | some ce =>
        obtain ⟨c, eb⟩ := ce
        rw [hgnc] at h
        by_cases hc : c = endStr
        · subst hc
          have hbody5 : (forced || (eb && decide (word.length < 5))) = false →
              5 ≤ word.length := by
            intro hforced
            rw [Bool.or_eq_false_iff] at hforced
            rcases gnc_cases _ _ _ _ _ _ hgnc with ⟨_, hebt⟩ | ⟨_, hecne, _, _⟩
            · subst hebt
              have hand := hforced.2
              rw [Bool.true_and] at hand
              simpa using hand
            · by_cases hge : 5 ≤ word.length
              · exact hge
              · exfalso
                exact hecne (by simpa using hge) rfl
          refine ih (word ++ endStr) endStr
            (forced || (eb && decide (word.length < 5))) (idx + 1) res forced2 ?_ ?_ ?_ ?_ h
          · rw [List.length_append]
            unfold endStr
            simp
            omega
          · intro hmem
            rcases List.mem_append.mp hmem with hm | hm
            · exact hstart hm
            · unfold endStr at hm
              rw [List.mem_singleton] at hm
              exact absurd hm (by decide)
          · intro _
            exact ⟨word, rfl, hEword, hbody5⟩
          · intro hne
            exact absurd rfl hne
        · rcases gnc_cases _ _ _ _ _ _ hgnc with ⟨hcend, _⟩ |
            ⟨_, _, hcs, d, cnt, hdl, hcd⟩
          · exact absurd hcend hc
          · rcases train_inner_key_char ws model_order _ d hdl (c, cnt) hcd hcs with
              hce | hkey
            · exact absurd hce hc
            · obtain ⟨w, hw, ch, hch, hchw⟩ := hkey
              have hch' : c = [ch] := hch
              have hch1 : ch ≠ START_CHARACTER := by
                intro he
                exact (hws w hw).2.1 (he ▸ hchw)
              have hch2 : ch ≠ END_CHARACTER := by
                intro he
                exact (hws w hw).2.2 (he ▸ hchw)
              refine ih (word ++ c) c (forced || (eb && decide (word.length < 5)))
                (idx + 1) res forced2 ?_ ?_ ?_ ?_ h
              · rw [List.length_append, hch']
                simp
                omega
              · intro hmem
                rcases List.mem_append.mp hmem with hm | hm
                · exact hstart hm
                · rw [hch', List.mem_singleton] at hm
                  exact absurd hm.symm hch1
              · intro hh
                exact absurd hh hc
              · intro _
                intro hmem
                rcases List.mem_append.mp hmem with hm | hm
                · exact hEword hm
                · rw [hch', List.mem_singleton] at hm
                  exact absurd hm.symm hch2
    · rw [if_neg hcond] at h
      have hres : res = word.filter
          (fun ch => ch ≠ START_CHARACTER && ch ≠ END_CHARACTER) ∧ forced2 = forced := by
        have hinj := Option.some_inj.mp h
        exact ⟨(congrArg Prod.fst hinj).symm, (congrArg Prod.snd hinj).symm⟩
      obtain ⟨hres1, hres2⟩ := hres
      by_cases hnext : next = endStr
      · obtain ⟨body, hbody, hEbody, hbody5⟩ := hend hnext
        have hfilter : word.filter
            (fun ch => ch ≠ START_CHARACTER && ch ≠ END_CHARACTER) = body := by
          rw [hbody, List.filter_append]
          have h1 : body.filter (fun ch => ch ≠ START_CHARACTER && ch ≠ END_CHARACTER) =
              body := by
            apply List.filter_eq_self.mpr
            intro a ha
            have ha1 : a ≠ START_CHARACTER := by
              intro he
              exact hstart (he ▸ (hbody ▸ List.mem_append_left _ ha))
            have ha2 : a ≠ END_CHARACTER := by
              intro he
              exact hEbody (he ▸ ha)
            simp [ha1, ha2]
          have h2 : ([END_CHARACTER] : Str).filter
              (fun ch => ch ≠ START_CHARACTER && ch ≠ END_CHARACTER) = [] := by decide
          rw [h1, h2, List.append_nil]
        rw [hres1, hfilter]
        have hbl : body.length + 1 = word.length := by
          rw [hbody, List.length_append]
          rfl
        constructor
        · omega
        · intro hf2
          exact hbody5 (by rw [← hres2]; exact hf2)
      · have hlen21 : word.length = 21 := by
          have hcond2 : ¬lenOk word (some 20) = true := by
            intro hl
            exact hcond ⟨hnext, hl⟩
          unfold lenOk at hcond2
          simp at hcond2
          omega
        have hEw : END_CHARACTER ∉ word := hnend hnext
        have hfilter : word.filter
            (fun ch => ch ≠ START_CHARACTER && ch ≠ END_CHARACTER) = word := by
          apply List.filter_eq_self.mpr
          intro a ha
          have ha1 : a ≠ START_CHARACTER := by
            intro he
            exact hstart (he ▸ ha)
          have ha2 : a ≠ END_CHARACTER := by
            intro he
            exact hEw (he ▸ ha)
          simp [ha1, ha2]
        rw [hres1, hfilter]
        constructor
        · omega
        · intro _
          omega

/-- C5 fails as stated: on the dictionary `{"aaaaa"}` (every word of length
at least 5, plain alphabet) an oracle that always draws the non-END branch
makes `generate_word(min_length=5, max_length=20)` return a 21-character
string, because the loop guard `len(word) <= max_length` only stops the
loop after the word has already grown past the maximum. -/
theorem generate_word_counterexample :
    generate_word (train exWords5 1) 1 5 (some 20) (fun _ => 1) 30 =
      some (List.replicate 21 'a', false) ∧
    ¬ (List.replicate 21 'a' : Str).length ≤ 20 := ⟨by decide, by decide⟩

/-- C5 amended: for a model trained on a dictionary whose words all have
length at least 5 and avoid the reserved START/END characters, every string
`generate_word(min_length=5, max_length=20)` returns has length at most 21
(the loop can overshoot the maximum by one before the length check), and
its length is at least 5 unless the run forced END below the minimum
length (END being the only available transition there). -/
theorem generate_word_bounds (ws : List Str) (model_order : Nat) (oracle : Nat → Nat)
    (fuel : Nat) (res : Str) (forced : Bool)
    (hws : ∀ w ∈ ws, 5 ≤ w.length ∧ START_CHARACTER ∉ w ∧ END_CHARACTER ∉ w)
    (h : generate_word (train ws model_order) model_order 5 (some 20) oracle fuel =
      some (res, forced)) :
    res.length ≤ 21 ∧ (forced = false → 5 ≤ res.length) := by
  unfold generate_word at h
  exact generate_word_loop_bounds ws model_order oracle hws fuel [] [] false 0 res forced
    (by simp) (by simp)
    (by
      intro hh
      exact absurd hh (by decide))
    (by
      intro _
      simp) h

/-- Witness for the amended C5 at the one-word dictionary `{"aaaaa"}`. -/
theorem generate_word_bounds_witness :
    (List.replicate 21 'a' : Str).length ≤ 21 ∧
    (false = false → 5 ≤ (List.replicate 21 'a' : Str).length) :=
  generate_word_bounds exWords5 1 (fun _ => 1) 30 (List.replicate 21 'a') false
    (by decide) (by decide)

/-! ### Claim C1: best-first search monotonicity -/

theorem entryLtB_true_le (e f : Entry) (h : entryLtB e f = true) : e.1 ≤ f.1 := by
  unfold entryLtB at h
  by_cases h1 : e.1 < f.1
  · exact le_of_lt h1
  · rw [if_neg h1] at h
    by_cases h2 : f.1 < e.1
    · rw [if_pos h2] at h
      exact absurd h (by simp)
    · exact le_of_not_lt h2

theorem entryLtB_false_le (e f : Entry) (h : entryLtB e f = false) : f.1 ≤ e.1 := by
  unfold entryLtB at h
  by_cases h1 : e.1 < f.1
  · rw [if_pos h1] at h
    exact absurd h (by simp)
  · exact le_of_not_lt h1

theorem selectMin_spec (l : List Entry) : ∀ e : Entry,
    (selectMin e l).1 ∈ e :: l ∧
    (∀ f ∈ (selectMin e l).2, f ∈ e :: l) ∧
    (∀ f ∈ e :: l, (selectMin e l).1.1 ≤ f.1) := by
  induction l with
  | nil =>
    intro e
    refine ⟨List.mem_cons_self e [], ?_, ?_⟩
    · intro f hf
      exact absurd hf (by simp [selectMin])
    · intro f hf
      have hfe : f = e := List.mem_singleton.mp hf
      rw [hfe]
      exact le_refl e.1
  | cons g rest ih =>
    intro e
    unfold selectMin
    by_cases hlt : entryLtB g e = true
    · rw [if_pos hlt]
      obtain ⟨hm, hsub, hmin⟩ := ih g
      refine ⟨?_, ?_, ?_⟩
      · rcases List.mem_cons.mp hm with h | h
        · rw [h]
          exact List.mem_cons_of_mem e (List.mem_cons_self g rest)
        · exact List.mem_cons_of_mem e (List.mem_cons_of_mem g h)
      · intro f hf
        rcases List.mem_cons.mp hf with h | h
        · rw [h]
          exact List.mem_cons_self e _
        · rcases List.mem_cons.mp (hsub f h) with h' | h'
          · rw [h']
            exact List.mem_cons_of_mem e (List.mem_cons_self g rest)
          · exact List.mem_cons_of_mem e (List.mem_cons_of_mem g h')
      · intro f hf
        rcases List.mem_cons.mp hf with h | h
        · rw [h]
          exact le_trans (hmin g (List.mem_cons_self g rest)) (entryLtB_true_le g e hlt)
        · exact hmin f h
    · rw [if_neg hlt]
      obtain ⟨hm, hsub, hmin⟩ := ih e
      refine ⟨?_, ?_, ?_⟩
      · rcases List.mem_cons.mp hm with h | h
        · rw [h]
          exact List.mem_cons_self e _
        · exact List.mem_cons_of_mem e (List.mem_cons_of_mem g h)
      · intro f hf
        rcases List.mem_cons.mp hf with h | h
        · rw [h]
          exact List.mem_cons_of_mem e (List.mem_cons_self g rest)
        · rcases List.mem_cons.mp (hsub f h) with h' | h'
          · rw [h']
            exact List.mem_cons_self e _
          · exact List.mem_cons_of_mem e (List.mem_cons_of_mem g h')
      · intro f hf
        rcases List.mem_cons.mp hf with h | h
        · rw [h]
          exact hmin e (List.mem_cons_self e rest)
        · rcases List.mem_cons.mp h with h' | h'
          · rw [h']
            exact le_trans (hmin e (List.mem_cons_self e rest))
              (entryLtB_false_le g e (by simpa using hlt))
          · exact hmin f (List.mem_cons_of_mem e h')

theorem popMin_spec (queue : List Entry) (m : Entry) (rest : List Entry)
    (h : popMin queue = some (m, rest)) :
    m ∈ queue ∧ (∀ f ∈ rest, f ∈ queue) ∧ (∀ f ∈ queue, m.1 ≤ f.1) := by
  cases queue with
  | nil => exact absurd h (by simp [popMin])
  | cons e l =>
    unfold popMin at h
    have hsm := Option.some_inj.mp h
    obtain ⟨h1, h2, h3⟩ := selectMin_spec l e
    rw [hsm] at h1 h2 h3
    exact ⟨h1, h2, h3⟩

theorem tots_mem (d : CDict) (pc : Str × ℚ)
    (h : pc ∈ transition_occurences_to_probabilities d) :
    ∃ cnt, (pc.1, cnt) ∈ d ∧ pc.1 ≠ sumKey ∧
      pc.2 = (cnt : ℚ) / (((alookup d sumKey).getD 0 : Nat) : ℚ) := by
  unfold transition_occurences_to_probabilities at h
  rw [List.mem_map] at h
  obtain ⟨x, hx, hxe⟩ := h
  have hxf := List.mem_filter.mp hx
  refine ⟨x.2, ?_, ?_, ?_⟩
  · rw [show pc.1 = x.1 from (congrArg Prod.fst hxe).symm]
    exact hxf.1
  · rw [show pc.1 = x.1 from (congrArg Prod.fst hxe).symm]
    simpa using hxf.2
  · rw [show pc.2 = (x.2 : ℚ) / (((alookup d sumKey).getD 0 : Nat) : ℚ) from
      (congrArg Prod.snd hxe).symm]

theorem tots_eq_ngramProb (ws : List Str) (model_order : Nat) (pre : Str) (d : CDict)
    (hd : alookup (train ws model_order) pre = some d) (pc : Str × ℚ)
    (hmem : pc ∈ transition_occurences_to_probabilities d) :
    (∃ ch : Char, pc.1 = [ch]) ∧
    pc.2 = find_ngram_probability (train ws model_order) (pre ++ pc.1) := by
  obtain ⟨cnt, hin, hns, hval⟩ := tots_mem d pc hmem
  have hwf := (train_wf ws model_order).2 _ (mem_of_alookup _ _ _ hd)
  have hlen : pc.1.length = 1 := hwf.2.2.2.1 (pc.1, cnt) hin hns
  obtain ⟨ch, hch⟩ : ∃ ch, pc.1 = [ch] := by
    cases hc : pc.1 with
    | nil =>
      rw [hc] at hlen
      exact absurd hlen (by simp)
    | cons a rest =>
      cases hr : rest with
      | nil => exact ⟨a, rfl⟩
      | cons b r2 =>
        rw [hc, hr] at hlen
        exact absurd hlen (by simp)
  refine ⟨⟨ch, hch⟩, ?_⟩
  have hpre2 : build_prechain_from_ngram (pre ++ pc.1) = pre := by
    unfold build_prechain_from_ngram
    rw [hch, List.dropLast_concat]
  have hpost2 : build_postchain_from_ngram (pre ++ pc.1) = pc.1 := by
    unfold build_postchain_from_ngram
    rw [hch, takeR_one_append]
  have hlup : alookup d pc.1 = some cnt := alookup_of_mem d pc.1 cnt hwf.2.1 hin
  rw [find_ngram_probability_post_some (train ws model_order) (pre ++ pc.1) d cnt
    (by rw [hpre2]; exact hd) (by rw [hpost2]; exact hlup)]
  exact hval

theorem find_word_probability_fst (t : Table) (model_order : Nat) (word : Str) (e : Bool) :
    (find_word_probability t model_order word e).1 =
      ((build_ngrams_of_word word (model_order + 1) e).map
        (find_ngram_probability t)).foldl (· * ·) 1 := rfl

theorem prefixProb_snoc (t : Table) (model_order : Nat) (w : Str) (ch : Char) :
    prefixProb t model_order (w ++ [ch]) =
      prefixProb t model_order w *
        find_ngram_probability t
          (takeR model_order (List.replicate model_order START_CHARACTER ++ w) ++ [ch]) := by
  unfold prefixProb
  rw [find_word_probability_fst, find_word_probability_fst]
  rw [bnow_false_snoc w (model_order + 1) ch (by omega)]
  rw [Nat.add_sub_cancel]
  rw [List.map_append, List.foldl_append]
  simp only [List.map_cons, List.map_nil, List.foldl_cons, List.foldl_nil]

theorem endProb_eq_prefixProb (t : Table) (model_order : Nat) (w : Str) :
    endProb t model_order w = prefixProb t model_order (w ++ [END_CHARACTER]) := by
  unfold endProb prefixProb
  rw [find_word_probability_fst, find_word_probability_fst]
  rw [bnow_true_eq_snoc_false]

theorem endProb_dropLast (t : Table) (model_order : Nat) (w : Str)
    (hw : takeR 1 w = endStr) :
    endProb t model_order w.dropLast = prefixProb t model_order w := by
  rw [endProb_eq_prefixProb]
  congr 1
  rw [show ([END_CHARACTER] : Str) = endStr from rfl, ← hw]
  exact dropLast_append_takeR_one w

theorem prefixProb_nonneg (t : Table) (model_order : Nat) (w : Str) :
    0 ≤ prefixProb t model_order w :=
  find_word_probability_nonneg t model_order w false

theorem build_ngram_for_eq_takeR (w : Str) (model_order : Nat)
    (hlen : (build_ngram_for w model_order).length = model_order) :
    build_ngram_for w model_order =
      takeR model_order (List.replicate model_order START_CHARACTER ++ w) := by
  by_cases h0 : model_order = 0
  · subst h0
    unfold build_ngram_for at hlen ⊢
    rw [if_pos rfl] at hlen ⊢
    simp at hlen
    subst hlen
    rfl
  · unfold build_ngram_for
    rw [if_neg h0]

theorem word_entry_some (t : Table) (model_order : Nat) (w : Str) (p : ℚ) :
    word_entry t model_order w (some p) = (1 - p, w) := rfl

theorem fmpwLoop_pairwise (ws : List Str) (model_order words_count : Nat) :
    ∀ (fuel : Nat) (queue : List Entry) (results : List Str) (iteration mq : Nat)
      (out : List Str × Nat × Nat),
    (∀ e ∈ queue, e.1 = 1 - prefixProb (train ws model_order) model_order e.2) →
    (∀ w ∈ results, ∀ e ∈ queue,
      1 - e.1 ≤ endProb (train ws model_order) model_order w) →
    results.Pairwise (fun a b => endProb (train ws model_order) model_order b ≤
      endProb (train ws model_order) model_order a) →
    fmpwLoop (train ws model_order) model_order words_count fuel queue results
      iteration mq = some out →
    out.1.Pairwise (fun a b => endProb (train ws model_order) model_order b ≤
      endProb (train ws model_order) model_order a) := by
  intro fuel
  induction fuel with
  | zero =>
    intro queue results iteration mq out _ _ _ h
    exact absurd h (by simp [fmpwLoop])
  | succ fuel ih =>
    intro queue results iteration mq out h1 h2 h3 h
    unfold fmpwLoop at h
    by_cases hk : results.length < words_count
    · rw [if_pos hk] at h
      cases hpop : popMin queue with
      | none =>
        rw [hpop] at h
        have h' : (some (results, iteration, mq) :
            Option (List Str × Nat × Nat)) = some out := h
        rw [show out.1 = results from
          (congrArg Prod.fst (Option.some_inj.mp h')).symm]
        exact h3
      | some pr =>
        obtain ⟨entry, rest⟩ := pr
        rw [hpop] at h
        obtain ⟨hmem, hsub, hmin⟩ := popMin_spec queue entry rest hpop
        have h' : (if takeR 1 entry.2 = endStr then
              fmpwLoop (train ws model_order) model_order words_count fuel rest
                (results ++ [entry.2.dropLast]) (iteration + 1) (max mq queue.length)
            else
              match alookup (train ws model_order)
                  (build_ngram_for entry.2 model_order) with
              | none => none
              | some transition =>
                fmpwLoop (train ws model_order) model_order words_count fuel
                  (rest ++ (transition_occurences_to_probabilities transition).map
                    (fun pc => word_entry (train ws model_order) model_order
                      (entry.2 ++ pc.1) (some ((1 - entry.1) * pc.2))))
                  results (iteration + 1) (max mq queue.length)) = some out := h
        by_cases hE : takeR 1 entry.2 = endStr
        · rw [if_pos hE] at h'
          refine ih rest (results ++ [entry.2.dropLast]) (iteration + 1)
            (max mq queue.length) out ?_ ?_ ?_ h'
          · intro e he
            exact h1 e (hsub e he)
          · intro w hw e he
            rcases List.mem_append.mp hw with hwo | hwn
            · exact h2 w hwo e (hsub e he)
            · rw [List.mem_singleton.mp hwn]
              rw [endProb_dropLast _ _ _ hE]
              have hpe : 1 - entry.1 = prefixProb (train ws model_order) model_order
                  entry.2 := by
                rw [h1 entry hmem]
                exact sub_sub_cancel 1 _
              rw [← hpe]
              exact sub_le_sub_left (hmin e (hsub e he)) 1
          · rw [List.pairwise_append]
            refine ⟨h3, List.pairwise_singleton _ _, ?_⟩
            intro a ha b hb
            rw [List.mem_singleton.mp hb]
            rw [endProb_dropLast _ _ _ hE]
            have hpe : 1 - entry.1 = prefixProb (train ws model_order) model_order
                entry.2 := by
              rw [h1 entry hmem]
              exact sub_sub_cancel 1 _
            rw [← hpe]
            exact h2 a ha entry hmem
        · rw [if_neg hE] at h'
          cases hlook : alookup (train ws model_order)
              (build_ngram_for entry.2 model_order) with
          | none =>
            rw [hlook] at h'
            exact absurd h' (by simp)
          | some transition =>
            rw [hlook] at h'
            have h'' : fmpwLoop (train ws model_order) model_order words_count fuel
                (rest ++ (transition_occurences_to_probabilities transition).map
                  (fun pc => word_entry (train ws model_order) model_order
                    (entry.2 ++ pc.1) (some ((1 - entry.1) * pc.2))))
                results (iteration + 1) (max mq queue.length) = some out := h'
            have hkeylen : (build_ngram_for entry.2 model_order).length = model_order :=
              ((train_wf ws model_order).2 _ (mem_of_alookup _ _ _ hlook)).1
            have hkeyeq : build_ngram_for entry.2 model_order =
                takeR model_order
                  (List.replicate model_order START_CHARACTER ++ entry.2) :=
              build_ngram_for_eq_takeR entry.2 model_order hkeylen
            have hpe : 1 - entry.1 = prefixProb (train ws model_order) model_order
                entry.2 := by
              rw [h1 entry hmem]
              exact sub_sub_cancel 1 _
            have hpushed : ∀ pc ∈ transition_occurences_to_probabilities transition,
                (1 - entry.1) * pc.2 =
                  prefixProb (train ws model_order) model_order (entry.2 ++ pc.1) ∧
                0 ≤ pc.2 ∧ pc.2 ≤ 1 := by
              intro pc hpc
              obtain ⟨⟨ch, hch⟩, hval⟩ :=
                tots_eq_ngramProb ws model_order _ transition hlook pc hpc
              constructor
              · rw [hch, prefixProb_snoc, ← hpe]
                congr 1
                rw [hval, hch]
                rw [show build_ngram_for entry.2 model_order ++ [ch] =
                  takeR model_order
                    (List.replicate model_order START_CHARACTER ++ entry.2) ++ [ch] from
                  by rw [hkeyeq]]
              · rw [hval]
                exact ⟨find_ngram_probability_nonneg _ _,
                  find_ngram_probability_le_one ws model_order _⟩
            refine ih _ results (iteration + 1) (max mq queue.length) out ?_ ?_ h3 h''
            · intro e he
              rcases List.mem_append.mp he with hr | hp
              · exact h1 e (hsub e hr)
              · rw [List.mem_map] at hp
                obtain ⟨pc, hpc, rfl⟩ := hp
                rw [word_entry_some]
                rw [(hpushed pc hpc).1]
            · intro w hw e he
              rcases List.mem_append.mp he with hr | hp
              · exact h2 w hw e (hsub e hr)
              · rw [List.mem_map] at hp
                obtain ⟨pc, hpc, rfl⟩ := hp
                rw [word_entry_some]
                have hb := (hpushed pc hpc).2
                have hstep : (1 - entry.1) * pc.2 ≤ 1 - entry.1 :=
                  mul_le_of_le_one_right (by rw [hpe]; exact prefixProb_nonneg _ _ _)
                    hb.2
                calc 1 - (1 - (1 - entry.1) * pc.2) = (1 - entry.1) * pc.2 :=
                      sub_sub_cancel 1 _
                  _ ≤ 1 - entry.1 := hstep
                  _ ≤ endProb (train ws model_order) model_order w := h2 w hw entry hmem
    · rw [if_neg hk] at h
      have h' : (some (results, iteration, mq) :
          Option (List Str × Nat × Nat)) = some out := h
      rw [show out.1 = results from
        (congrArg Prod.fst (Option.some_inj.mp h')).symm]
      exact h3

/-- C1: on every trained model, the words returned by
`find_most_probable_words`, each paired with its recomputed with-ending
probability, come out in non-increasing probability order: a word emitted
earlier has probability at least that of any word emitted later. -/
theorem topk_monotone (ws : List Str) (model_order words_count fuel : Nat)
    (ret : List (Str × ℚ × List ℚ) × Nat × Nat)
    (h : find_most_probable_words (train ws model_order) model_order words_count fuel =
      some ret) :
    ret.1.Pairwise (fun a b => b.2.1 ≤ a.2.1) := by
  unfold find_most_probable_words at h
  cases hloop : fmpwLoop (train ws model_order) model_order words_count fuel
      [word_entry (train ws model_order) model_order [] none] [] 0 0 with
  | none =>
    rw [hloop] at h
    exact absurd h (by simp)
  | some out =>
    obtain ⟨emitted, it, mqv⟩ := out
    rw [hloop] at h
    have hpw := fmpwLoop_pairwise ws model_order words_count fuel
      [word_entry (train ws model_order) model_order [] none] [] 0 0
      (emitted, it, mqv)
      (by
        intro e he
        rw [List.mem_singleton.mp he]
        rfl)
      (by
        intro w hw
        exact absurd hw (List.not_mem_nil w))
      List.Pairwise.nil hloop
    have h' : (some (emitted.map (fun w => (w, find_word_probability
          (train ws model_order) model_order w true)), it, mqv) :
        Option (List (Str × ℚ × List ℚ) × Nat × Nat)) = some ret := h
    rw [show ret.1 = emitted.map (fun w => (w, find_word_probability
        (train ws model_order) model_order w true)) from
      (congrArg Prod.fst (Option.some_inj.mp h')).symm]
    rw [List.pairwise_map]
    exact hpw

/-- Witness for C1 at the example model of order 2, `words_count = 3`. -/
theorem topk_monotone_witness : exRet.1.Pairwise (fun a b => b.2.1 ≤ a.2.1) :=
  topk_monotone exWords 2 3 20 exRet (by with_unfolding_all decide)

/-! ### Claim C2: the three-word scenario -/

/-- C2's iteration bound fails: on the `{"can","car","cat"}` dictionary with
order 2, `find_most_probable_words(3)` reports 9 loop iterations (one per
queue pop: the empty word, `"c"`, `"ca"`, and then pop-expand plus
pop-emit for each of the three END-terminated words), not at most 7. -/
theorem scenario_counterexample :
    (find_most_probable_words (train exWords 2) 2 3 20).map (fun r => r.2.1) = some 9 ∧
    ¬ (9 ≤ 7) := ⟨by with_unfolding_all decide, by decide⟩

/-- C2 amended: on the dictionary `{"cat","car","can"}` with order 2,
`find_word_probability("cat")` with ending has total 1/3;
`find_most_probable_words(3)` returns exactly the words can, car, cat (so
all three, in some order), each with with-ending probability 1/3; and the
iteration count it reports is exactly 9 (in particular at most 9, not at
most 7). -/
theorem scenario_amended :
    (find_word_probability (train exWords 2) 2 (("cat").data) true).1 = 1/3 ∧
    find_most_probable_words (train exWords 2) 2 3 20 = some exRet ∧
    exRet.1.map Prod.fst = [("can").data, ("car").data, ("cat").data] ∧
    (∀ p ∈ exRet.1, p.2.1 = 1/3) ∧
    exRet.2.1 = 9 :=
  ⟨by with_unfolding_all decide, by with_unfolding_all decide, by decide,
    by with_unfolding_all decide, by decide⟩
